import Mathlib

/-!
Verification of the upb message store, ownership protocol and dispatch
traversal (src/src/upb_msg.c) against its natural-language specification.

The development is a shallow embedding:

* machine integers are `Nat` with explicit `% 2^32` where the C code uses
  `uint32_t` arithmetic whose overflow matters (`upb_round_up_pow2`);
* the raw message block (`malloc(md->size)` plus presence bits at
  `set_bit_offset`/`set_bit_mask` and value slots at per-field byte offsets)
  is modelled as a per-field list of presence booleans plus a per-field list
  of typed value slots, indexed by the field's `findex` (the model of the
  layout-assigned offset / bit position);
* heap objects (messages, arrays, strings) live in an explicit heap indexed
  by allocation order; a `upb_value` holding a pointer stores the address,
  with `none` standing for the C `NULL`;
* the recursive teardown (`_upb_msg_free` / `_upb_array_free` / the unref
  helpers) is written with an explicit fuel parameter to make the mutual
  recursion structurally terminating; every theorem supplies enough fuel;
* functions of this repository that are declared outside the provided
  sources (the inline helpers of upb_msg.h, the atomic refcount primitive,
  the string store and the dispatcher plumbing of upb_handlers) are
  modelled from the spec; their doc comments say so.
-/

namespace UpbMsg

/-- The subset of upb field types the claims exercise: sub-messages
(`MESSAGE`/`GROUP`), strings (`STRING`/`BYTES`) and a representative inline
scalar type (`INT32`). -/
inductive upb_fieldtype where
  | tMESSAGE
  | tGROUP
  | tSTRING
  | tBYTES
  | tINT32
deriving DecidableEq

/-- A `upb_value`: either an inline scalar or an ownership handle to a heap
object; `vptr none` is the C `NULL` pointer read from zeroed storage. -/
inductive upb_value where
  | vint (n : Int)
  | vptr (a : Option Nat)

/-- A field descriptor (`upb_fielddef`): wire number, value kind, repeated
flag, the slot/bit index assigned by the layout (model of the byte offset
and `set_bit_offset`/`set_bit_mask`), the default value, and for sub-message
fields the index of the nested message definition in the def pool. -/
structure upb_fielddef where
  number : Nat
  ftype : upb_fieldtype
  repeated : Bool
  findex : Nat
  default_value : upb_value
  subdef : Option Nat

/-- Modelled from the spec: `upb_issubmsg` (upb_def.h, not in the provided
sources) — the field's kind is a sub-message. -/
def upb_issubmsg (f : upb_fielddef) : Bool :=
  f.ftype == .tMESSAGE || f.ftype == .tGROUP

/-- Modelled from the spec: `upb_isstring` (upb_def.h, not in the provided
sources) — the field's kind is a string. -/
def upb_isstring (f : upb_fielddef) : Bool :=
  f.ftype == .tSTRING || f.ftype == .tBYTES

/-- Modelled from the spec: `upb_isarray` (upb_def.h, not in the provided
sources) — the field is repeated. -/
def upb_isarray (f : upb_fielddef) : Bool :=
  f.repeated

/-- Modelled from the spec: `upb_elem_ismm` (upb_msg.h, not in the provided
sources) — the element kind is ownership-managed (sub-message or string). -/
def upb_elem_ismm (f : upb_fielddef) : Bool :=
  upb_issubmsg f || upb_isstring f

/-- Modelled from the spec: `upb_field_ismm` (upb_msg.h, not in the provided
sources) — the field's storage slot holds an ownership handle (repeated
fields, sub-messages and strings). -/
def upb_field_ismm (f : upb_fielddef) : Bool :=
  upb_isarray f || upb_issubmsg f || upb_isstring f

/-- The value a zeroed element slot of kind `f` reads as: `NULL` for
ownership-managed element kinds, the scalar zero otherwise. -/
def upb_elem_zero (f : upb_fielddef) : upb_value :=
  if upb_elem_ismm f then .vptr none else .vint 0

/-- The value a zeroed field slot of kind `f` reads as: `NULL` for
ownership-managed kinds, the scalar zero otherwise. -/
def upb_field_zero (f : upb_fielddef) : upb_value :=
  if upb_field_ismm f then .vptr none else .vint 0

/-- A message layout (`upb_msgdef`): the ordered field descriptors.  The
layout's declared storage size is `fields.length` slots in this model. -/
structure upb_msgdef where
  fields : List upb_fielddef

/-- A well-formed layout assigns field `i` of the iteration order the slot
and presence-bit index `i` (distinct, in-range offsets, as the schema
compiler guarantees). -/
def upb_msgdef_wf (md : upb_msgdef) : Prop :=
  ∀ i, (h : i < md.fields.length) → (md.fields.get ⟨i, h⟩).findex = i

/-- `upb_value_read(p, type)`: typed read of a storage slot.  Slots are
already typed in this model, so the read is the identity. -/
def upb_value_read (v : upb_value) (_t : upb_fieldtype) : upb_value := v

/-- The def pool resolving `upb_fielddef.subdef` indices to message
definitions (model of the `upb_def` graph, external to upb_msg.c). -/
abbrev DefPool := List upb_msgdef

/- ## Array store -/

/-- A `upb_array` heap object: refcount, logical length `len`, allocated
capacity `size`, and the element buffer `ptr` (one slot per allocated
element; the C buffer holds `size * type_size` bytes). -/
structure upb_arrayobj where
  refcount : Nat
  len : Nat
  size : Nat
  ptr : List upb_value

/-- upb_msg.c, `upb_round_up_pow2` bit-smearing cascade: after the five
or-shift steps every bit at or below the leading one bit of the input is
set.  Inputs are below `2^32`, and the or-shift steps cannot produce higher
bits, so no intermediate masking is needed (faithful to `uint32_t`). -/
def upb_smear (v : Nat) : Nat :=
  let v1 := v ||| (v >>> 1)
  let v2 := v1 ||| (v1 >>> 2)
  let v3 := v2 ||| (v2 >>> 4)
  let v4 := v3 ||| (v3 >>> 8)
  v4 ||| (v4 >>> 16)

/-- upb_msg.c, `upb_round_up_pow2`: `v--`, the or-shift cascade, `v++`, all
in `uint32_t` arithmetic.  The decrement and increment are taken mod `2^32`
exactly as the C unsigned arithmetic wraps. -/
def upb_round_up_pow2 (v : Nat) : Nat :=
  (upb_smear ((v + (2 ^ 32 - 1)) % 2 ^ 32) + 1) % 2 ^ 32

/-- upb_msg.c, `upb_array_new` (the allocated object): refcount 1, length 0,
capacity 0, no buffer. -/
def upb_array_new_obj : upb_arrayobj :=
  { refcount := 1, len := 0, size := 0, ptr := [] }

/-- upb_msg.c, `upb_array_resize`.  If the requested length exceeds the
capacity the buffer is reallocated to `upb_round_up_pow2 len` elements
(realloc preserves the `old_size` existing elements) and the added region is
zero-filled by `memset`; then the logical length is set.  The `memset`
length is computed as `(new_size - old_size) * type_size` in `size_t`: when
`upb_round_up_pow2` wraps below the old capacity this subtraction underflows
and the call writes outside the allocation — undefined behaviour, modelled
as `none`. -/
def upb_array_resize (arr : upb_arrayobj) (f : upb_fielddef) (len : Nat) :
    Option upb_arrayobj :=
  if arr.size < len then
    let new_size := upb_round_up_pow2 len
    if new_size < arr.size then
      none
    else
      some { arr with
        ptr := arr.ptr.take new_size ++
          List.replicate (new_size - arr.size) (upb_elem_zero f),
        size := new_size,
        len := len }
  else
    some { arr with len := len }

/-- A sequence of `upb_array_resize` calls on one array, failing if any call
runs into the undefined-behaviour case. -/
def applyResizes (f : upb_fielddef) (Ls : List Nat) (arr : upb_arrayobj) :
    Option upb_arrayobj :=
  Ls.foldlM (fun a L => upb_array_resize a f L) arr

/-- The array store invariant: capacity at least the logical length, and the
buffer allocation holding exactly `size` element slots. -/
def upb_array_inv (A : upb_arrayobj) : Prop :=
  A.len ≤ A.size ∧ A.ptr.length = A.size

/- ## Message store and heap -/

/-- A `upb_msg` heap block: the embedded ownership count, the presence
bitmap (one bit per field, indexed by `findex`) and the value slots (one per
field, indexed by `findex`). -/
structure upb_msgobj where
  refcount : Nat
  hasbits : List Bool
  slots : List upb_value

/-- A refcounted heap object: message block, array, or opaque string (the
string store is an external collaborator; only its count matters here). -/
inductive upb_obj where
  | omsg (m : upb_msgobj)
  | oarr (a : upb_arrayobj)
  | ostr (refcount : Nat)

/-- The ownership count embedded in a heap object. -/
def upb_obj_refcount : upb_obj → Nat
  | .omsg m => m.refcount
  | .oarr a => a.refcount
  | .ostr c => c

/-- Replace the ownership count embedded in a heap object. -/
def upb_obj_setref : upb_obj → Nat → upb_obj
  | .omsg m, c => .omsg { m with refcount := c }
  | .oarr a, c => .oarr { a with refcount := c }
  | .ostr _, c => .ostr c

/-- The heap: objects indexed by allocation order; a freed address maps to
`none`. -/
structure Heap where
  objs : List (Option upb_obj)

/-- Dereference an address; `none` for freed or never-allocated addresses. -/
def Heap.read (h : Heap) (a : Nat) : Option upb_obj :=
  h.objs.getD a none

/-- Overwrite the object at a live address in place. -/
def Heap.write (h : Heap) (a : Nat) (o : upb_obj) : Heap :=
  ⟨h.objs.set a (some o)⟩

/-- `free()` the object at an address. -/
def Heap.free (h : Heap) (a : Nat) : Heap :=
  ⟨h.objs.set a none⟩

/-- `malloc()` a fresh object, returning its address. -/
def Heap.alloc (h : Heap) (o : upb_obj) : Heap × Nat :=
  (⟨h.objs ++ [some o]⟩, h.objs.length)

/-- Modelled from the spec: the ownership primitive's increment
(`upb_atomic_ref`, upb_atomic.h, not in the provided sources). -/
def upb_atomic_ref (h : Heap) (a : Nat) : Heap :=
  match h.read a with
  | some o => h.write a (upb_obj_setref o (upb_obj_refcount o + 1))
  | none => h

/-- Modelled from the spec: the ownership primitive's sole-owner query
(`upb_atomic_only`, upb_atomic.h, not in the provided sources). -/
def upb_atomic_only (h : Heap) (a : Nat) : Bool :=
  match h.read a with
  | some o => upb_obj_refcount o == 1
  | none => false

/-- `upb_value_getrefcount`: the embedded refcount handle of a value, `none`
when the value is a `NULL` reference (zeroed slot). -/
def upb_value_getrefcount (v : upb_value) : Option Nat :=
  match v with
  | .vptr (some a) => some a
  | _ => none

/-- The slot of field `f` in message block `M` (the typed read at the
field's layout offset). -/
def upb_msg_slot (M : upb_msgobj) (f : upb_fielddef) : upb_value :=
  M.slots.getD f.findex (.vint 0)

/- ### Recursive teardown (upb_msg.c lines 24..59, 83..94, 121..131)

The six functions below are the mutual free/unref family.  `fuel` bounds the
nesting depth of the teardown; each function hands `fuel` to its callees,
so any theorem only needs fuel at least the nesting depth of the object
graph it destroys. -/

mutual

/-- upb_msg.c, `upb_elem_free`: kind-directed free of one element.  For
sub-messages, recursive `_upb_msg_free` with the nested def; for strings,
`_upb_string_free` (string store is external; it frees the object).  The
default branch of the C switch is `abort()` — unreachable for the
ownership-managed elements this function is invoked on. -/
def upb_elem_free (fuel : Nat) (h : Heap) (v : upb_value) (f : upb_fielddef)
    (env : DefPool) : Heap :=
  match fuel with
  | 0 => h
  | fuel + 1 =>
    if upb_issubmsg f then
      match v, f.subdef with
      | .vptr (some a), some si => _upb_msg_free fuel h a (env.getD si ⟨[]⟩) env
      | _, _ => h
    else if upb_isstring f then
      match v with
      | .vptr (some a) => h.free a
      | _ => h
    else h

/-- upb_msg.c, `upb_elem_unref`: release one element reference.  A `NULL`
reference (`upb_value_getrefcount` gives `none`) is a no-op; otherwise the
count is decremented and the element freed when it reaches zero. -/
def upb_elem_unref (fuel : Nat) (h : Heap) (v : upb_value) (f : upb_fielddef)
    (env : DefPool) : Heap :=
  match fuel with
  | 0 => h
  | fuel + 1 =>
    match upb_value_getrefcount v with
    | some a =>
      match h.read a with
      | some o =>
        if upb_obj_refcount o ≤ 1 then upb_elem_free fuel h v f env
        else h.write a (upb_obj_setref o (upb_obj_refcount o - 1))
      | none => h
    | none => h

/-- upb_msg.c, `upb_field_free`: free a field's value — the whole array for
repeated fields, otherwise one element. -/
def upb_field_free (fuel : Nat) (h : Heap) (v : upb_value) (f : upb_fielddef)
    (env : DefPool) : Heap :=
  match fuel with
  | 0 => h
  | fuel + 1 =>
    if upb_isarray f then
      match v with
      | .vptr (some a) => _upb_array_free fuel h a f env
      | _ => h
    else upb_elem_free fuel h v f env

/-- upb_msg.c, `upb_field_unref`: release one field reference; `NULL` is a
no-op, otherwise decrement and free on reaching zero. -/
def upb_field_unref (fuel : Nat) (h : Heap) (v : upb_value) (f : upb_fielddef)
    (env : DefPool) : Heap :=
  match fuel with
  | 0 => h
  | fuel + 1 =>
    match upb_value_getrefcount v with
    | some a =>
      match h.read a with
      | some o =>
        if upb_obj_refcount o ≤ 1 then upb_field_free fuel h v f env
        else h.write a (upb_obj_setref o (upb_obj_refcount o - 1))
      | none => h
    | none => h

/-- upb_msg.c, `_upb_array_free`: when the element kind is
ownership-managed, unref the element at every index `i < arr->size` (the
allocated capacity — the C loop bound is `arr->size`); then `free(arr->ptr)`
and `free(arr)`, modelled together as freeing the array object. -/
def _upb_array_free (fuel : Nat) (h : Heap) (a : Nat) (f : upb_fielddef)
    (env : DefPool) : Heap :=
  match fuel with
  | 0 => h
  | fuel + 1 =>
    match h.read a with
    | some (.oarr A) =>
      let h1 :=
        if upb_elem_ismm f then
          ((List.range A.size).map
            (fun i => upb_value_read (A.ptr.getD i (.vint 0)) f.ftype)).foldl
            (fun hh v => upb_elem_unref fuel hh v f env) h
        else h
      h1.free a
    | _ => h

/-- upb_msg.c, `_upb_msg_free`: for every field of the layout (present or
not — the loop has no presence check), unref ownership-managed fields; then
free the block.  The slots are read from the block, which the child unrefs
do not modify. -/
def _upb_msg_free (fuel : Nat) (h : Heap) (a : Nat) (md : upb_msgdef)
    (env : DefPool) : Heap :=
  match fuel with
  | 0 => h
  | fuel + 1 =>
    match h.read a with
    | some (.omsg M) =>
      let h1 := md.fields.foldl
        (fun hh f =>
          if upb_field_ismm f then
            upb_field_unref fuel hh (upb_value_read (upb_msg_slot M f) f.ftype)
              f env
          else hh) h
      h1.free a
    | _ => h

end

/- ### Message operations (upb_msg.c lines 113..180, 133..141) -/

/-- upb_msg.c, `upb_msg_new`: allocate the layout's block, zero it (all
presence bits clear, all slots reading as zero/`NULL`), ownership count 1. -/
def upb_msg_new (h : Heap) (md : upb_msgdef) : Heap × Nat :=
  h.alloc (.omsg
    { refcount := 1,
      hasbits := List.replicate md.fields.length false,
      slots := md.fields.map upb_field_zero })

/-- Modelled from the spec: `upb_msg_has` (upb_msg.h, not in the provided
sources) — read the field's presence bit. -/
def upb_msg_has (h : Heap) (a : Nat) (f : upb_fielddef) : Bool :=
  match h.read a with
  | some (.omsg M) => M.hasbits.getD f.findex false
  | _ => false

/-- upb_msg.c, `upb_msg_sethas`: set the field's presence bit in the block
(`msg->data[f->set_bit_offset] |= f->set_bit_mask`). -/
def upb_msg_sethas (M : upb_msgobj) (f : upb_fielddef) : upb_msgobj :=
  { M with hasbits := M.hasbits.set f.findex true }

/-- upb_msg.c, `upb_msg_set`: for ownership-managed fields, unref the slot's
previous value and ref the new value's count when it has one; then set the
presence bit and write the slot — also on the very first set. -/
def upb_msg_set (fuel : Nat) (h : Heap) (a : Nat) (f : upb_fielddef)
    (val : upb_value) (env : DefPool) : Heap :=
  match h.read a with
  | some (.omsg M) =>
    let h1 :=
      if upb_field_ismm f then
        let h0 := upb_field_unref fuel h
          (upb_value_read (upb_msg_slot M f) f.ftype) f env
        match upb_value_getrefcount val with
        | some r => upb_atomic_ref h0 r
        | none => h0
      else h
    match h1.read a with
    | some (.omsg M1) =>
      h1.write a (.omsg (upb_msg_sethas
        { M1 with slots := M1.slots.set f.findex val } f))
    | _ => h1
  | _ => h

/-- upb_msg.c, `upb_msg_get`: when the field is absent, materialize the
default.  For sub-message fields this allocates a new message
(`upb_msg_new`), copies the default prototype's whole block verbatim
(`memcpy` of presence bits and slots) and re-initializes the new object's
own count to 0 — the `upb_msg_set` call then takes the first reference; the
default (materialized or not) is always cached into the message via
`upb_msg_set`.  When the field is present, the slot is read directly. -/
def upb_msg_get (fuel : Nat) (h : Heap) (a : Nat) (f : upb_fielddef)
    (env : DefPool) : Heap × upb_value :=
  if upb_msg_has h a f = false then
    let val := f.default_value
    if upb_issubmsg f then
      match val with
      | .vptr (some aD) =>
        match h.read aD with
        | some (.omsg D) =>
          let alloc1 := h.alloc (.omsg
            { refcount := 0, hasbits := D.hasbits, slots := D.slots })
          let v2 : upb_value := .vptr (some alloc1.2)
          (upb_msg_set fuel alloc1.1 a f v2 env, v2)
        | _ => (upb_msg_set fuel h a f val env, val)
      | _ => (upb_msg_set fuel h a f val env, val)
    else
      (upb_msg_set fuel h a f val env, val)
  else
    match h.read a with
    | some (.omsg M) => (h, upb_value_read (upb_msg_slot M f) f.ftype)
    | _ => (h, .vint 0)

/-- Modelled from the spec: `upb_msg_clear` (upb_msg.h, not in the provided
sources) — release all currently-owned present fields, then clear the
presence bitmap and re-zero the slots in place without freeing the block
(destroy-in-place followed by re-zeroing). -/
def upb_msg_clear (fuel : Nat) (h : Heap) (a : Nat) (md : upb_msgdef)
    (env : DefPool) : Heap :=
  match h.read a with
  | some (.omsg M) =>
    let h1 := md.fields.foldl
      (fun hh f =>
        if upb_field_ismm f && M.hasbits.getD f.findex false then
          upb_field_unref fuel hh (upb_value_read (upb_msg_slot M f) f.ftype)
            f env
        else hh) h
    match h1.read a with
    | some (.omsg M1) =>
      h1.write a (.omsg
        { refcount := M1.refcount,
          hasbits := List.replicate md.fields.length false,
          slots := md.fields.map upb_field_zero })
    | _ => h1
  | _ => h

/-- Modelled from the spec: `upb_msg_unref` (upb_msg.h, not in the provided
sources) — release one message reference: `NULL` is a no-op; otherwise
decrement and run `_upb_msg_free` when the count reaches zero. -/
def upb_msg_unref (fuel : Nat) (h : Heap) (s : Option Nat) (md : upb_msgdef)
    (env : DefPool) : Heap :=
  match s with
  | some a =>
    match h.read a with
    | some o =>
      if upb_obj_refcount o ≤ 1 then _upb_msg_free fuel h a md env
      else h.write a (upb_obj_setref o (upb_obj_refcount o - 1))
    | none => h
  | none => h

/-- upb_msg.c, `upb_msg_recycle`: when the slot holds a message and the
caller is its sole owner, clear it logically in place; otherwise release the
old message (if any) and store a freshly allocated message into the slot. -/
def upb_msg_recycle (fuel : Nat) (h : Heap) (s : Option Nat)
    (md : upb_msgdef) (env : DefPool) : Heap × Option Nat :=
  match s with
  | some a =>
    if upb_atomic_only h a then (upb_msg_clear fuel h a md env, s)
    else
      let h1 := upb_msg_unref fuel h s md env
      let alloc1 := upb_msg_new h1 md
      (alloc1.1, some alloc1.2)
  | none =>
    let h1 := upb_msg_unref fuel h none md env
    let alloc1 := upb_msg_new h1 md
    (alloc1.1, some alloc1.2)

/- ## Dispatch traversal (upb_msg.c lines 182..244)

The traversal is read-only: `upb_msg_dispatch` checks `upb_msg_has` before
calling `upb_msg_get`, so the get always takes the present branch and reads
the slot without mutating anything.  The traversal is therefore embedded
over the present-field view of a message: the layout-ordered sequence of
fields, each carrying its wire number, presence flag, repeated flag and the
value(s) read from its slot, with nested messages inlined as trees.  The
consumer-supplied handler set (upb_handlers, external to upb_msg.c, modelled
from the spec) maps a wire number to an optional per-field entry of
callbacks returning flow signals; every handler call is recorded as an
event, together with the signal the handler returned. -/

/-- The flow-control signals (`upb_flow_t`): CONTINUE, SKIP-SUBMESSAGE, and
BREAK (the spec's ABORT). -/
inductive upb_flow_t where
  | UPB_CONTINUE
  | UPB_SKIPSUBMSG
  | UPB_BREAK
deriving DecidableEq

open upb_flow_t

/-- One visitor event, recording the signal the handler returned (`endMsg`
records whether the traversal was aborted instead). -/
inductive UEvent where
  | startMsg
  | valueEv (n : Nat) (v : Int) (ret : upb_flow_t)
  | startSub (n : Nat) (ret : upb_flow_t)
  | endSub (n : Nat) (ret : upb_flow_t)
  | endMsg (aborted : Bool)

/-- Modelled from the spec: a registered handler entry
(`upb_handlers_fieldent`, upb_handlers.h, not in the provided sources): the
`value`, `startSubmessage` and `endSubmessage` callbacks, each returning a
flow signal. -/
structure upb_handlers_fieldent where
  hvalue : Int → upb_flow_t
  hstartsubmsg : upb_flow_t
  hendsubmsg : upb_flow_t

/-- Modelled from the spec: a handler set (`upb_handlers` plus
`upb_dispatcher_lookup`): optional per-field-number entries; `none` means no
handler registered. -/
structure upb_handlers where
  lookup : Nat → Option upb_handlers_fieldent

mutual

/-- The value stored for one dispatched field occurrence: an inline scalar
or a nested (present) sub-message. -/
inductive DVal where
  | dint (x : Int)
  | dmsg (m : DMsg)

/-- The element list of a repeated field, in array storage order. -/
inductive DVals where
  | nil
  | cons (v : DVal) (vs : DVals)

/-- One field of the present-field view: wire number, presence flag and
either the single slot value or the repeated elements. -/
inductive DField where
  | fsingle (number : Nat) (present : Bool) (v : DVal)
  | farr (number : Nat) (present : Bool) (vs : DVals)

/-- A message as seen by the traversal: its fields in layout iteration
order. -/
inductive DMsg where
  | nil
  | cons (f : DField) (m : DMsg)

end

/-- The wire number of a field of the present-field view. -/
def DField.number : DField → Nat
  | .fsingle n _ _ => n
  | .farr n _ _ => n

/-- The presence flag of a field of the present-field view. -/
def DField.present : DField → Bool
  | .fsingle _ p _ => p
  | .farr _ p _ => p

mutual

/-- upb_msg.c, `upb_msg_pushval`: push one value.  For a sub-message:
`startSubmessage` through `CHECK_FLOW_LOCAL` (a non-CONTINUE signal returns
early, SKIP-SUBMESSAGE translated to CONTINUE), then the recursive dispatch
through `CHECK_FLOW_LOCAL`, then `endSubmessage` through `CHECK_FLOW` (its
signal is returned as is).  For a scalar: the `value` callback through
`CHECK_FLOW`.  Returns the resulting flow and the events emitted. -/
def upb_msg_pushval (v : DVal) (n : Nat) (h : upb_handlers)
    (hf : upb_handlers_fieldent) : upb_flow_t × List UEvent :=
  match v with
  | .dint x =>
    let fl := hf.hvalue x
    (fl, [.valueEv n x fl])
  | .dmsg m =>
    let fl1 := hf.hstartsubmsg
    if fl1 ≠ UPB_CONTINUE then
      (if fl1 = UPB_SKIPSUBMSG then UPB_CONTINUE else fl1, [.startSub n fl1])
    else
      let r2 := upb_msg_dispatch m h
      if r2.1 ≠ UPB_CONTINUE then
        (if r2.1 = UPB_SKIPSUBMSG then UPB_CONTINUE else r2.1,
          .startSub n fl1 :: r2.2)
      else
        let fl3 := hf.hendsubmsg
        (fl3, .startSub n fl1 :: r2.2 ++ [.endSub n fl3])

/-- upb_msg.c, `upb_msg_dispatch`, inner element loop of a repeated field:
each element is pushed through `CHECK_FLOW_LOCAL`; a non-CONTINUE result
exits the whole dispatch (the flow is returned raw here, and translated by
the caller exactly where the C macro translates it). -/
def upb_msg_dispatchElems (vs : DVals) (n : Nat) (h : upb_handlers)
    (hf : upb_handlers_fieldent) : upb_flow_t × List UEvent :=
  match vs with
  | .nil => (UPB_CONTINUE, [])
  | .cons v rest =>
    let r := upb_msg_pushval v n h hf
    if r.1 = UPB_CONTINUE then
      let r2 := upb_msg_dispatchElems rest n h hf
      (r2.1, r.2 ++ r2.2)
    else r

/-- upb_msg.c, `upb_msg_dispatch`: walk the fields in layout order.  Absent
fields and fields with no registered handler are skipped silently.  A
present field's value(s) are pushed through `CHECK_FLOW_LOCAL`:
SKIP-SUBMESSAGE abandons the remaining fields of this message and returns
CONTINUE; BREAK returns BREAK. -/
def upb_msg_dispatch (m : DMsg) (h : upb_handlers) :
    upb_flow_t × List UEvent :=
  match m with
  | .nil => (UPB_CONTINUE, [])
  | .cons f rest =>
    if f.present = false then upb_msg_dispatch rest h
    else
      match h.lookup f.number with
      | none => upb_msg_dispatch rest h
      | some hf =>
        let r :=
          match f with
          | .fsingle n _ v => upb_msg_pushval v n h hf
          | .farr n _ vs => upb_msg_dispatchElems vs n h hf
        match r.1 with
        | UPB_CONTINUE =>
          let r2 := upb_msg_dispatch rest h
          (r2.1, r.2 ++ r2.2)
        | UPB_SKIPSUBMSG => (UPB_CONTINUE, r.2)
        | UPB_BREAK => (UPB_BREAK, r.2)

end

/-- upb_msg.c, `upb_msg_runhandlers`: emit `startMessage`, run the dispatch
(its result is not checked), then always emit `endMessage` with the status —
abort-indicating exactly when the dispatch came back with BREAK (modelled
from the spec: the dispatcher's status channel is external). -/
def upb_msg_runhandlers (m : DMsg) (h : upb_handlers) : List UEvent :=
  let r := upb_msg_dispatch m h
  .startMsg :: r.2 ++ [.endMsg (r.1 = UPB_BREAK)]

/- ## Concrete instances used by the counterexamples and witnesses -/

/-- A singular scalar field, number 1, slot 0, schema default 5. -/
def exF_i32 : upb_fielddef := ⟨1, .tINT32, false, 0, .vint 5, none⟩

/-- A layout with the single scalar field `exF_i32`. -/
def exMd1 : upb_msgdef := ⟨[exF_i32]⟩

/-- The empty heap. -/
def exH0 : Heap := ⟨[]⟩

/-- A repeated string field, number 1, slot 0. -/
def exFstrArr : upb_fielddef := ⟨1, .tSTRING, true, 0, .vint 0, none⟩

/-- A singular string field, number 1, slot 0, whose schema default is the
string object at address 0. -/
def exFstr : upb_fielddef := ⟨1, .tSTRING, false, 0, .vptr (some 0), none⟩

/-- An array with logical length 3 and capacity 4, as produced by resizing a
fresh array to length 3 and writing nothing. -/
def exA4 : upb_arrayobj := ⟨1, 3, 4, List.replicate 4 (.vint 0)⟩

/-- C2 heap: address 0 a string with ownership count 2; address 1 a string
array with logical length 0 but capacity 2 whose slot 0 still references the
string (the state an array is in right after `upb_array_recycle`). -/
def exHC2 : Heap :=
  ⟨[some (.ostr 2), some (.oarr ⟨1, 0, 2, [.vptr (some 0), .vptr none]⟩)]⟩

/-- A singular sub-message field, number 1, slot 0, whose default prototype
is the message at address 0 and whose nested layout is def-pool entry 1. -/
def exFsub : upb_fielddef := ⟨1, .tMESSAGE, false, 0, .vptr (some 0), some 1⟩

/-- A layout with the single sub-message field `exFsub`. -/
def exMdP : upb_msgdef := ⟨[exFsub]⟩

/-- C5 heap: the default prototype message at address 0 (one present scalar
slot holding 7). -/
def exHC5 : Heap := ⟨[some (.omsg ⟨1, [true], [.vint 7]⟩)]⟩

/-- C6 heap, sole-owner case: a message at address 0 with ownership count 1
and its scalar field present. -/
def exHC6 : Heap := ⟨[some (.omsg ⟨1, [true], [.vint 9]⟩)]⟩

/-- C6 heap, shared case: the same message but with ownership count 2. -/
def exHC6b : Heap := ⟨[some (.omsg ⟨2, [true], [.vint 9]⟩)]⟩

/-- C10 heap: a live string object at address 0 (count 1), used as the value
of the first `setField` on a fresh message. -/
def exHstr : Heap := ⟨[some (.ostr 1)]⟩

/-- A layout with the single string field `exFstr`. -/
def exMdStr : upb_msgdef := ⟨[exFstr]⟩

/-- A handler entry whose callbacks all return CONTINUE. -/
def contEnt : upb_handlers_fieldent :=
  ⟨fun _ => UPB_CONTINUE, UPB_CONTINUE, UPB_CONTINUE⟩

/-- A handler entry whose `value` callback returns SKIP-SUBMESSAGE. -/
def skipValEnt : upb_handlers_fieldent :=
  ⟨fun _ => UPB_SKIPSUBMSG, UPB_CONTINUE, UPB_CONTINUE⟩

/-- A handler entry whose `startSubmessage` callback returns
SKIP-SUBMESSAGE. -/
def skipSubEnt : upb_handlers_fieldent :=
  ⟨fun _ => UPB_CONTINUE, UPB_SKIPSUBMSG, UPB_CONTINUE⟩

/-- A handler entry whose `value` callback returns BREAK. -/
def breakValEnt : upb_handlers_fieldent :=
  ⟨fun _ => UPB_BREAK, UPB_CONTINUE, UPB_CONTINUE⟩

/-- C9 handler set: registered for field numbers 1 and 3 only, all
callbacks returning CONTINUE. -/
def exH9 : upb_handlers :=
  ⟨fun n => if n = 1 ∨ n = 3 then some contEnt else none⟩

/-- C9 message: field 1 a present scalar (10), field 2 absent, field 3 a
present repeated field with elements 7, 8, 9. -/
def exM9 : DMsg :=
  .cons (.fsingle 1 true (.dint 10))
    (.cons (.fsingle 2 false (.dint 0))
      (.cons (.farr 3 true
        (.cons (.dint 7) (.cons (.dint 8) (.cons (.dint 9) .nil)))) .nil))

/-- C9 message variant: field 2 present but unregistered. -/
def exM9b : DMsg :=
  .cons (.fsingle 1 true (.dint 10))
    (.cons (.fsingle 2 true (.dint 20))
      (.cons (.farr 3 true
        (.cons (.dint 7) (.cons (.dint 8) (.cons (.dint 9) .nil)))) .nil))

/-- C3 handler set: the `value` handler of field 2 returns SKIP-SUBMESSAGE
(a non-CONTINUE signal), everything else CONTINUE. -/
def exH3 : upb_handlers :=
  ⟨fun n => if n = 2 then some skipValEnt else some contEnt⟩

/-- C3 message: field 1 a present sub-message containing scalar field 2,
followed by scalar field 3 in the parent. -/
def exM3 : DMsg :=
  .cons (.fsingle 1 true (.dmsg (.cons (.fsingle 2 true (.dint 5)) .nil)))
    (.cons (.fsingle 3 true (.dint 7)) .nil)

/-- A handler set registering `breakValEnt` for every field. -/
def exHB : upb_handlers := ⟨fun _ => some breakValEnt⟩

/-- A one-field message with a present scalar. -/
def exMB : DMsg := .cons (.fsingle 1 true (.dint 5)) .nil

/-- A handler set registering `skipSubEnt` for every field. -/
def exH4 : upb_handlers := ⟨fun _ => some skipSubEnt⟩

/-- An event whose handler returned BREAK from a `value` or `endSubmessage`
callback — the situations claim C3 is about. -/
def breakyEv : UEvent → Bool
  | .valueEv _ _ fl => fl == UPB_BREAK
  | .endSub _ fl => fl == UPB_BREAK
  | _ => false

/-- The abort-propagation property of a traversal result: any recorded
BREAK return from a `value` or `endSubmessage` callback is the last event
of the trace, and the traversal's resulting flow is BREAK. -/
def BreakyLast (fl : upb_flow_t) (tr : List UEvent) : Prop :=
  ∀ i e, tr[i]? = some e → breakyEv e = true →
    i + 1 = tr.length ∧ fl = UPB_BREAK

/- ## Characterization of `upb_round_up_pow2` -/

/-- One or-shift step of the smearing cascade: if the bits of `t` are the
ors of windows of `m+1` consecutive bits of `v`, then the bits of
`t ||| (t >>> (m+1))` are the ors of windows of `2*(m+1)` consecutive
bits. -/
theorem testBit_orshift (t v m s M : Nat) (hs : s = m + 1)
    (hM : M = m + (m + 1))
    (ht : ∀ i, t.testBit i = true ↔ ∃ d, d ≤ m ∧ v.testBit (i + d) = true)
    (i : Nat) :
    (t ||| (t >>> s)).testBit i = true ↔
      ∃ d, d ≤ M ∧ v.testBit (i + d) = true := by
  subst hs hM
  simp only [Nat.testBit_or, Nat.testBit_shiftRight, Bool.or_eq_true, ht]
  constructor
  · rintro (⟨d, hd, hb⟩ | ⟨d, hd, hb⟩)
    · exact ⟨d, Nat.le_trans hd (Nat.le_add_right m (m + 1)), hb⟩
    · refine ⟨m + 1 + d, ?_, ?_⟩
      · rw [Nat.add_comm m (m + 1)]
        exact Nat.add_le_add_left hd (m + 1)
      · rw [← Nat.add_assoc, Nat.add_comm i (m + 1)]
        exact hb
  · rintro ⟨d, hd, hb⟩
    by_cases hdm : d ≤ m
    · exact Or.inl ⟨d, hdm, hb⟩
    · have hmd : m + 1 ≤ d := Nat.lt_of_not_le hdm
      refine Or.inr ⟨d - (m + 1), Nat.sub_le_of_le_add hd, ?_⟩
      rw [Nat.add_comm (m + 1) i, Nat.add_assoc, Nat.add_sub_cancel' hmd]
      exact hb

/-- The bits of `upb_smear v` are the ors of windows of 32 consecutive bits
of `v`. -/
theorem upb_smear_testBit (v i : Nat) :
    (upb_smear v).testBit i = true ↔
      ∃ d, d ≤ 31 ∧ v.testBit (i + d) = true := by
  have h0 : ∀ i, v.testBit i = true ↔
      ∃ d, d ≤ 0 ∧ v.testBit (i + d) = true := by
    intro j
    constructor
    · intro h
      exact ⟨0, Nat.le_refl 0, by rw [Nat.add_zero]; exact h⟩
    · rintro ⟨d, hd, hb⟩
      have hd0 : d = 0 := Nat.le_zero.mp hd
      subst hd0
      rw [Nat.add_zero] at hb
      exact hb
  have h1 := testBit_orshift v v 0 1 1 rfl rfl h0
  have h2 := testBit_orshift _ v 1 2 3 rfl rfl h1
  have h3 := testBit_orshift _ v 3 4 7 rfl rfl h2
  have h4 := testBit_orshift _ v 7 8 15 rfl rfl h3
  have h5 := testBit_orshift _ v 15 16 31 rfl rfl h4
  simp only [upb_smear]
  exact h5 i

/-- For a positive 32-bit input, the smear cascade yields exactly the bits
at or below the leading bit: `2 ^ (log2 v + 1) - 1`. -/
theorem upb_smear_eq (v : Nat) (hv : 1 ≤ v) (hv32 : v < 2 ^ 32) :
    upb_smear v = 2 ^ (Nat.log2 v + 1) - 1 := by
  have hvne : v ≠ 0 := fun h0 => absurd (h0 ▸ hv) (by decide)
  have hlog31 : Nat.log2 v < 32 := (Nat.log2_lt hvne).mpr hv32
  have hbit : v.testBit (Nat.log2 v) = true := by
    have hle : 2 ^ Nat.log2 v ≤ v := Nat.log2_self_le hvne
    have hlt : v < 2 ^ (Nat.log2 v + 1) := Nat.lt_log2_self
    have hpos : 0 < 2 ^ Nat.log2 v := Nat.pos_pow_of_pos _ (by decide)
    have hdiv1 : 1 ≤ v / 2 ^ Nat.log2 v :=
      (Nat.le_div_iff_mul_le hpos).mpr (by rw [Nat.one_mul]; exact hle)
    have hdiv2 : v / 2 ^ Nat.log2 v < 2 := by
      rw [Nat.div_lt_iff_lt_mul hpos, Nat.mul_comm]
      rw [Nat.pow_succ] at hlt
      exact hlt
    have hdiv : v / 2 ^ Nat.log2 v = 1 :=
      Nat.le_antisymm (Nat.lt_succ_iff.mp hdiv2) hdiv1
    rw [Nat.testBit_to_div_mod, hdiv]
    decide
  apply Nat.eq_of_testBit_eq
  intro i
  rw [Nat.testBit_two_pow_sub_one]
  by_cases hi : i ≤ Nat.log2 v
  · have h1 : (upb_smear v).testBit i = true := by
      refine (upb_smear_testBit v i).mpr ⟨Nat.log2 v - i,
        Nat.le_trans (Nat.sub_le _ _) (Nat.lt_succ_iff.mp hlog31), ?_⟩
      rw [Nat.add_sub_cancel' hi]
      exact hbit
    rw [h1, decide_eq_true (Nat.lt_succ_of_le hi)]
  · have h1 : (upb_smear v).testBit i = false := by
      rw [← Bool.not_eq_true]
      intro hT
      obtain ⟨d, hd, hb⟩ := (upb_smear_testBit v i).mp hT
      have hfalse : v.testBit (i + d) = false := by
        apply Nat.testBit_lt_two_pow
        calc v < 2 ^ (Nat.log2 v + 1) := Nat.lt_log2_self
        _ ≤ 2 ^ (i + d) := Nat.pow_le_pow_right (by decide)
          (Nat.le_trans (Nat.lt_of_not_le hi) (Nat.le_add_right i d))
      rw [hfalse] at hb
      exact Bool.noConfusion hb
    rw [h1, decide_eq_false (fun hcon => hi (Nat.lt_succ_iff.mp hcon))]

/-- The C `v--` step: for `1 ≤ L < 2^32` the wrapped decrement is `L - 1`. -/
theorem upb_pred_mod (L : Nat) (h1 : 1 ≤ L) (h2 : L < 2 ^ 32) :
    (L + (2 ^ 32 - 1)) % 2 ^ 32 = L - 1 := by
  nth_rewrite 1 [← Nat.sub_add_cancel h1]
  rw [Nat.add_assoc, (by decide : 1 + (2 ^ 32 - 1) = 2 ^ 32), Nat.add_mod_right]
  exact Nat.mod_eq_of_lt (Nat.lt_of_le_of_lt (Nat.sub_le L 1) h2)

/-- For requests of at most `2^31`, `upb_round_up_pow2` computes exactly the
least power of two that is at least the request. -/
theorem upb_round_up_pow2_spec (L : Nat) (h1 : 1 ≤ L) (h2 : L ≤ 2 ^ 31) :
    (∃ k, upb_round_up_pow2 L = 2 ^ k) ∧ L ≤ upb_round_up_pow2 L ∧
      ∀ m, L ≤ 2 ^ m → upb_round_up_pow2 L ≤ 2 ^ m := by
  have hLpos : 0 < L := Nat.lt_of_lt_of_le Nat.zero_lt_one h1
  rcases Nat.lt_or_ge L 2 with hL1 | hL2
  · have hL : L = 1 := Nat.le_antisymm (Nat.lt_succ_iff.mp hL1) h1
    subst hL
    refine ⟨⟨0, by decide⟩, by decide, fun m _ => ?_⟩
    have : (1 : Nat) ≤ 2 ^ m := Nat.pos_pow_of_pos _ (by decide)
    rw [show upb_round_up_pow2 1 = 1 by decide]
    exact this
  · have hv1 : 1 ≤ L - 1 := Nat.le_sub_of_add_le hL2
    have hvne : L - 1 ≠ 0 := fun h0 => absurd (h0 ▸ hv1) (by decide)
    have hv32 : L - 1 < 2 ^ 32 :=
      Nat.lt_of_le_of_lt (Nat.sub_le L 1) (Nat.lt_of_le_of_lt h2 (by decide))
    have hlog : Nat.log2 (L - 1) < 31 := (Nat.log2_lt hvne).mpr
      (Nat.lt_of_lt_of_le (Nat.sub_lt hLpos Nat.zero_lt_one) h2)
    have hpow_le : 2 ^ (Nat.log2 (L - 1) + 1) ≤ 2 ^ 31 :=
      Nat.pow_le_pow_right (by decide) hlog
    have hcalc : upb_round_up_pow2 L = 2 ^ (Nat.log2 (L - 1) + 1) := by
      unfold upb_round_up_pow2
      rw [upb_pred_mod L h1 (Nat.lt_of_le_of_lt h2 (by decide)),
        upb_smear_eq (L - 1) hv1 hv32]
      have hpos : 1 ≤ 2 ^ (Nat.log2 (L - 1) + 1) := Nat.pos_pow_of_pos _ (by decide)
      rw [Nat.sub_add_cancel hpos]
      exact Nat.mod_eq_of_lt (Nat.lt_of_le_of_lt hpow_le (by decide))
    refine ⟨⟨Nat.log2 (L - 1) + 1, hcalc⟩, ?_, ?_⟩
    · rw [hcalc]
      exact Nat.le_of_pred_lt Nat.lt_log2_self
    · intro m hm
      rw [hcalc]
      apply Nat.pow_le_pow_right (by decide)
      exact (Nat.log2_lt hvne).mpr
        (Nat.lt_of_lt_of_le (Nat.sub_lt hLpos Nat.zero_lt_one) hm)

/- ## Array resize: single-step behaviour -/

/-- For requested lengths at most `2^31` a resize cannot hit the
undefined-behaviour case; it succeeds, preserves the store invariant, never
shrinks the capacity, and either only sets the length (no growth needed) or
reallocates to `upb_round_up_pow2 len` with the added region zero-filled. -/
theorem upb_array_resize_ok (A : upb_arrayobj) (f : upb_fielddef) (L : Nat)
    (hInv : upb_array_inv A) (hb : L ≤ 2 ^ 31) :
    ∃ A1, upb_array_resize A f L = some A1 ∧ upb_array_inv A1 ∧
      A.size ≤ A1.size ∧ A1.len = L ∧
      (¬ A.size < L → A1 = { A with len := L }) ∧
      (A.size < L → A1.size = upb_round_up_pow2 L ∧
        A1.ptr = A.ptr ++ List.replicate (A1.size - A.size) (upb_elem_zero f)) := by
  by_cases hsz : A.size < L
  · have hL1 : 1 ≤ L := Nat.lt_of_le_of_lt (Nat.zero_le A.size) hsz
    obtain ⟨hpow, hge, _⟩ := upb_round_up_pow2_spec L hL1 hb
    have hAu : A.size ≤ upb_round_up_pow2 L :=
      Nat.le_trans (Nat.le_of_lt hsz) hge
    have hnotub : ¬ upb_round_up_pow2 L < A.size := fun hcon =>
      Nat.lt_irrefl _ (Nat.lt_of_lt_of_le hcon hAu)
    have htake : A.ptr.take (upb_round_up_pow2 L) = A.ptr := by
      apply List.take_of_length_le
      rw [hInv.2]
      exact hAu
    refine ⟨{ A with
        ptr := A.ptr ++ List.replicate (upb_round_up_pow2 L - A.size) (upb_elem_zero f),
        size := upb_round_up_pow2 L, len := L }, ?_, ?_, hAu, rfl, ?_, ?_⟩
    · simp only [upb_array_resize, if_pos hsz, if_neg hnotub, htake]
    · refine ⟨hge, ?_⟩
      rw [List.length_append, List.length_replicate, hInv.2]
      exact Nat.add_sub_cancel' hAu
    · intro hcon
      exact absurd hsz hcon
    · intro _
      exact ⟨rfl, rfl⟩
  · refine ⟨{ A with len := L }, ?_, ?_, Nat.le_refl _, rfl, fun _ => rfl,
      fun hcon => absurd hcon hsz⟩
    · simp only [upb_array_resize, if_neg hsz]
    · exact ⟨Nat.le_of_not_lt hsz, hInv.2⟩

/-- Overwriting the length field with the length it already has is the
identity. -/
theorem upb_arrayobj_set_len_self (A : upb_arrayobj) (L : Nat)
    (hA : A.len = L) : { A with len := L } = A := by
  cases A
  simp_all

/-- A well-formed resize sequence from any invariant-satisfying array
succeeds, preserves the invariant and never shrinks the capacity. -/
theorem applyResizes_ok (f : upb_fielddef) (Ls : List Nat) :
    ∀ A : upb_arrayobj, upb_array_inv A → (∀ L ∈ Ls, L ≤ 2 ^ 31) →
      ∃ A', applyResizes f Ls A = some A' ∧ upb_array_inv A' ∧
        A.size ≤ A'.size := by
  induction Ls with
  | nil =>
    intro A hA _
    exact ⟨A, rfl, hA, Nat.le_refl _⟩
  | cons L Ls ih =>
    intro A hA hall
    obtain ⟨A1, h1, hInv1, hsz1, -, -, -⟩ :=
      upb_array_resize_ok A f L hA (hall L (by simp))
    obtain ⟨A', h2, hInv2, hsz2⟩ :=
      ih A1 hInv1 (fun L' hL' => hall L' (by simp [hL']))
    refine ⟨A', ?_, hInv2, Nat.le_trans hsz1 hsz2⟩
    simp only [applyResizes, List.foldlM_cons] at h2 ⊢
    rw [h1]
    simpa using h2

/-- C7 (amended, the bound `L ≤ 2^31` added): for lengths in the
representable range, resize to `L` twice is literally idempotent (capacity
and buffer unchanged by the second call), and resizing to `L`, then `L-1`,
then `L` again returns the exact array produced by the first resize — a
pure length shrink never clears or frees any bytes.  Without the bound the
first resize already has no defined result (see the counterexample). -/
theorem claim_C7 (A : upb_arrayobj) (f : upb_fielddef) (L : Nat)
    (hInv : upb_array_inv A) (hL : 1 ≤ L) (hb : L ≤ 2 ^ 31) :
    ∃ A1, upb_array_resize A f L = some A1 ∧
      upb_array_resize A1 f L = some A1 ∧
      (upb_array_resize A1 f (L - 1)).bind
        (fun B => upb_array_resize B f L) = some A1 := by
  obtain ⟨A1, hres, hInv1, -, hlen1, -, -⟩ := upb_array_resize_ok A f L hInv hb
  have hA1size : L ≤ A1.size := hlen1 ▸ hInv1.1
  obtain ⟨A2, hres2, -, -, -, heq2, -⟩ := upb_array_resize_ok A1 f L hInv1 hb
  have hA2 : A2 = A1 := by
    rw [heq2 (fun hcon => Nat.lt_irrefl _ (Nat.lt_of_le_of_lt hA1size hcon))]
    exact upb_arrayobj_set_len_self A1 L hlen1
  obtain ⟨B, hresB, hInvB, -, hlenB, heqB, -⟩ :=
    upb_array_resize_ok A1 f (L - 1) hInv1 (Nat.le_trans (Nat.sub_le L 1) hb)
  have hB : B = { A1 with len := L - 1 } := heqB (fun hcon =>
    Nat.lt_irrefl _ (Nat.lt_of_le_of_lt
      (Nat.le_trans (Nat.sub_le L 1) hA1size) hcon))
  have hBsize : L ≤ B.size := by rw [hB]; exact hA1size
  obtain ⟨C, hresC, -, -, -, heqC, -⟩ := upb_array_resize_ok B f L hInvB hb
  have hC : C = A1 := by
    rw [heqC (fun hcon => Nat.lt_irrefl _ (Nat.lt_of_le_of_lt hBsize hcon)), hB]
    obtain ⟨r, l, sz, p⟩ := A1
    cases hlen1
    rfl
  refine ⟨A1, hres, ?_, ?_⟩
  · rw [hres2, hA2]
  · rw [hresB]
    simp only [Option.some_bind]
    rw [hresC, hC]

/-- C7 counterexample: on an array with logical length 3 and capacity 4
(the state reached by resizing a fresh array to 3), a resize to
`2^31 + 1 = 2147483649` has no defined result at all — `upb_round_up_pow2`
wraps to 0 in `uint32_t`, and the `memset` length
`(new_size - old_size) * type_size` underflows `size_t`, writing outside
the allocation.  Hence the claim's guarantee "resize(A, L) followed by
resize(A, L) leaves the capacity unchanged" fails for this array and
length. -/
theorem claim_C7_counterexample :
    ¬ ∃ A1 A2, upb_array_resize exA4 exFstrArr 2147483649 = some A1 ∧
        upb_array_resize A1 exFstrArr 2147483649 = some A2 ∧
        A2.size = A1.size := by
  rintro ⟨A1, A2, h1, -, -⟩
  rw [show upb_array_resize exA4 exFstrArr 2147483649 = none from rfl] at h1
  exact Option.noConfusion h1

/-- C7 witness: the amended claim applied to a fresh array and length 3. -/
theorem claim_C7_witness :
    ∃ A1, upb_array_resize upb_array_new_obj exFstrArr 3 = some A1 ∧
      upb_array_resize A1 exFstrArr 3 = some A1 ∧
      (upb_array_resize A1 exFstrArr (3 - 1)).bind
        (fun B => upb_array_resize B exFstrArr 3) = some A1 :=
  claim_C7 upb_array_new_obj exFstrArr 3 (by constructor <;> decide)
    (by decide) (by decide)

/-- C8 (amended, every requested length bounded by `2^31`): starting from a
fresh array, any resize sequence keeps capacity at least the logical length
and the capacity never decreases; a growing resize reallocates to exactly
the least power of two at least the new length, keeps the existing elements
and zero-fills exactly the added region.  Without the bound a single resize
of a fresh array to `2^31 + 1` already violates capacity ≥ length (see the
counterexample). -/
theorem claim_C8 :
    (∀ (A : upb_arrayobj) (f : upb_fielddef) (L : Nat), upb_array_inv A →
      L ≤ 2 ^ 31 →
      ∃ A1, upb_array_resize A f L = some A1 ∧ upb_array_inv A1 ∧
        A.size ≤ A1.size ∧ A1.len = L) ∧
    (∀ (A : upb_arrayobj) (f : upb_fielddef) (L : Nat), upb_array_inv A →
      L ≤ 2 ^ 31 → A.size < L →
      ∃ A1, upb_array_resize A f L = some A1 ∧
        (∃ k, A1.size = 2 ^ k) ∧ L ≤ A1.size ∧
        (∀ m, L ≤ 2 ^ m → A1.size ≤ 2 ^ m) ∧
        A1.ptr = A.ptr ++ List.replicate (A1.size - A.size) (upb_elem_zero f)) ∧
    (∀ (f : upb_fielddef) (Ls : List Nat), (∀ L ∈ Ls, L ≤ 2 ^ 31) →
      ∃ A, applyResizes f Ls upb_array_new_obj = some A ∧ upb_array_inv A) ∧
    (∀ (f : upb_fielddef) (Ls : List Nat) (L : Nat), L ≤ 2 ^ 31 →
      (∀ L' ∈ Ls, L' ≤ 2 ^ 31) →
      ∀ A A', applyResizes f Ls upb_array_new_obj = some A →
        applyResizes f (Ls ++ [L]) upb_array_new_obj = some A' →
        A.size ≤ A'.size) := by
  refine ⟨?_, ?_, ?_, ?_⟩
  · intro A f L hInv hb
    obtain ⟨A1, h1, h2, h3, h4, -, -⟩ := upb_array_resize_ok A f L hInv hb
    exact ⟨A1, h1, h2, h3, h4⟩
  · intro A f L hInv hb hgrow
    have hL1 : 1 ≤ L := Nat.lt_of_le_of_lt (Nat.zero_le A.size) hgrow
    obtain ⟨A1, h1, hInv1, -, -, -, hg⟩ := upb_array_resize_ok A f L hInv hb
    obtain ⟨hsz, hptr⟩ := hg hgrow
    obtain ⟨hpow, hge, hmin⟩ := upb_round_up_pow2_spec L hL1 hb
    refine ⟨A1, h1, ?_, ?_, ?_, hptr⟩
    · obtain ⟨k, hk⟩ := hpow
      exact ⟨k, by rw [hsz, hk]⟩
    · rw [hsz]; exact hge
    · intro m hm
      rw [hsz]
      exact hmin m hm
  · intro f Ls hall
    obtain ⟨A, h1, h2, -⟩ :=
      applyResizes_ok f Ls upb_array_new_obj (by constructor <;> decide) hall
    exact ⟨A, h1, h2⟩
  · intro f Ls L hb hall A A' hA hA'
    obtain ⟨B, hB1, hBInv, hBsz⟩ :=
      applyResizes_ok f Ls upb_array_new_obj (by constructor <;> decide) hall
    have hAB : A = B := by
      rw [hA] at hB1
      exact Option.some_inj.mp hB1
    subst hAB
    obtain ⟨C, hC1, -, hCsz, -, -, -⟩ := upb_array_resize_ok A f L hBInv hb
    have : applyResizes f (Ls ++ [L]) upb_array_new_obj = some C := by
      simp only [applyResizes, List.foldlM_append, List.foldlM_cons,
        List.foldlM_nil] at hA ⊢
      rw [hA]
      simpa using hC1
    rw [this] at hA'
    have hAC : A' = C := Option.some_inj.mp hA'.symm
    rw [hAC]
    exact hCsz

/-- C8 counterexample: resizing a fresh array to `2^31 + 1` succeeds in C
(old capacity 0, so the memset length does not underflow) but
`upb_round_up_pow2` wraps to 0: the resulting array has capacity 0 and
logical length `2147483649`, violating both "capacity is always ≥ logical
length" and "the new capacity is the smallest power of two ≥ newLength". -/
theorem claim_C8_counterexample :
    upb_array_resize upb_array_new_obj exFstrArr 2147483649 =
      some ⟨1, 2147483649, 0, []⟩ ∧ ¬ (2147483649 : Nat) ≤ 0 := by
  constructor
  · exact rfl
  · decide

/-- C8 witness: the sequence clause applied to the resize sequence
`[3, 2, 5]` on a fresh array. -/
theorem claim_C8_witness :
    ∃ A, applyResizes exFstrArr [3, 2, 5] upb_array_new_obj = some A ∧
      upb_array_inv A :=
  claim_C8.2.2.1 exFstrArr [3, 2, 5] (by decide)

/- ## Heap access lemmas -/

/-- A readable address is inside the allocation range. -/
theorem Heap.read_some_lt {h : Heap} {a : Nat} {o : upb_obj}
    (hr : h.read a = some o) : a < h.objs.length := by
  by_contra hge
  have hnone : h.objs[a]? = none := List.getElem?_eq_none (Nat.le_of_not_lt hge)
  rw [Heap.read, List.getD_eq_getElem?_getD, hnone] at hr
  exact Option.noConfusion hr

/-- Reading back a written live address. -/
theorem Heap.read_write_self {h : Heap} {a : Nat} (o : upb_obj)
    (ha : a < h.objs.length) : (h.write a o).read a = some o := by
  simp only [Heap.read, Heap.write, List.getD_eq_getElem?_getD,
    List.getElem?_set_self ha, Option.getD_some]

/-- Writing one address leaves every other address unchanged. -/
theorem Heap.read_write_ne {h : Heap} {a b : Nat} (o : upb_obj)
    (hne : a ≠ b) : (h.write a o).read b = h.read b := by
  simp only [Heap.read, Heap.write, List.getD_eq_getElem?_getD,
    List.getElem?_set_ne hne]

/-- A freed address reads as `none`. -/
theorem Heap.read_free_self {h : Heap} {a : Nat} :
    (h.free a).read a = none := by
  by_cases ha : a < h.objs.length
  · simp only [Heap.read, Heap.free, List.getD_eq_getElem?_getD,
      List.getElem?_set_self ha, Option.getD_some]
  · have hnone : (h.objs.set a none)[a]? = none :=
      List.getElem?_eq_none (by rw [List.length_set]; exact Nat.le_of_not_lt ha)
    simp only [Heap.read, Heap.free, List.getD_eq_getElem?_getD, hnone,
      Option.getD_none]

/-- Freeing one address leaves every other address unchanged. -/
theorem Heap.read_free_ne {h : Heap} {a b : Nat} (hne : a ≠ b) :
    (h.free a).read b = h.read b := by
  simp only [Heap.read, Heap.free, List.getD_eq_getElem?_getD,
    List.getElem?_set_ne hne]

/-- Reading the freshly allocated address. -/
theorem Heap.read_alloc_self {h : Heap} (o : upb_obj) :
    (h.alloc o).1.read (h.alloc o).2 = some o := by
  show (h.objs ++ [some o]).getD h.objs.length none = some o
  rw [List.getD_eq_getElem?_getD, List.getElem?_concat_length]
  rfl

/-- Allocation leaves every existing address unchanged. -/
theorem Heap.read_alloc_ne {h : Heap} (o : upb_obj) {b : Nat}
    (hne : b ≠ h.objs.length) : (h.alloc o).1.read b = h.read b := by
  by_cases hb : b < h.objs.length
  · simp only [Heap.read, Heap.alloc, List.getD_eq_getElem?_getD,
      List.getElem?_append_left hb]
  · have h1 : (h.objs ++ [some o])[b]? = none :=
      List.getElem?_eq_none (by
        rw [List.length_append]
        exact Nat.lt_of_le_of_ne (Nat.le_of_not_lt hb) (Ne.symm hne))
    have h2 : h.objs[b]? = none := List.getElem?_eq_none (Nat.le_of_not_lt hb)
    simp only [Heap.read, Heap.alloc, List.getD_eq_getElem?_getD, h1, h2]

/-- Writes preserve the allocation range. -/
theorem Heap.write_length {h : Heap} {a : Nat} {o : upb_obj} :
    (h.write a o).objs.length = h.objs.length := by
  simp only [Heap.write, List.length_set]

/-- Frees preserve the allocation range. -/
theorem Heap.free_length {h : Heap} {a : Nat} :
    (h.free a).objs.length = h.objs.length := by
  simp [Heap.free]

/- ## Unref of a NULL reference, and the behaviour of `upb_msg_set` -/

/-- Releasing a value with no refcount handle (`NULL` slot or inline
scalar) through `upb_elem_unref` is a no-op on the heap. -/
theorem upb_elem_unref_null (fuel : Nat) (h : Heap) (v : upb_value)
    (f : upb_fielddef) (env : DefPool)
    (hv : upb_value_getrefcount v = none) :
    upb_elem_unref fuel h v f env = h := by
  cases fuel with
  | zero => rfl
  | succ fuel => rw [upb_elem_unref, hv]

/-- Releasing a value with no refcount handle through `upb_field_unref` is a
no-op on the heap. -/
theorem upb_field_unref_null (fuel : Nat) (h : Heap) (v : upb_value)
    (f : upb_fielddef) (env : DefPool)
    (hv : upb_value_getrefcount v = none) :
    upb_field_unref fuel h v f env = h := by
  cases fuel with
  | zero => rfl
  | succ fuel => rw [upb_field_unref, hv]

/-- The refcount embedded by `upb_obj_setref`. -/
theorem upb_obj_refcount_setref (o : upb_obj) (c : Nat) :
    upb_obj_refcount (upb_obj_setref o c) = c := by
  cases o <;> rfl

/-- Every slot of a freshly zeroed message block reads as a value with no
refcount handle. -/
theorem upb_msg_slot_fresh (M : upb_msgobj) (md : upb_msgdef)
    (f : upb_fielddef) (hs : M.slots = md.fields.map upb_field_zero) :
    upb_value_getrefcount (upb_msg_slot M f) = none := by
  rw [upb_msg_slot, hs, List.getD_eq_getElem?_getD]
  cases hx : (md.fields.map upb_field_zero)[f.findex]? with
  | none => rfl
  | some v =>
    obtain ⟨f', -, hf'⟩ := List.mem_map.mp (List.getElem?_mem hx)
    subst hf'
    simp only [Option.getD_some, upb_field_zero]
    split <;> rfl

/-- A fold of ownership releases over slots that all read as `NULL` or
inline scalars leaves the heap unchanged. -/
theorem fold_unref_fresh (fuel : Nat) (env : DefPool) (M : upb_msgobj)
    (hM : ∀ f : upb_fielddef, upb_value_getrefcount (upb_msg_slot M f) = none) :
    ∀ (fs : List upb_fielddef) (h1 : Heap),
      fs.foldl
        (fun hh f =>
          if upb_field_ismm f then
            upb_field_unref fuel hh (upb_value_read (upb_msg_slot M f) f.ftype)
              f env
          else hh) h1 = h1 := by
  intro fs
  induction fs with
  | nil => intro h1; rfl
  | cons f fs ih =>
    intro h1
    rw [List.foldl_cons]
    by_cases hism : upb_field_ismm f
    · rw [if_pos hism, upb_value_read,
        upb_field_unref_null fuel h1 _ f env (hM f)]
      exact ih h1
    · rw [if_neg hism]
      exact ih h1

/-- The exact heap produced by `upb_msg_set` on a message whose target slot
currently holds no reference: without a refcounted new value it is a single
in-place block update (presence bit set, slot overwritten); with a
refcounted new value stored elsewhere, additionally that value's count is
incremented. -/
theorem upb_msg_set_spec (fuel : Nat) (h : Heap) (a : Nat)
    (f : upb_fielddef) (val : upb_value) (env : DefPool) (M : upb_msgobj)
    (hM : h.read a = some (.omsg M))
    (hslot : upb_value_getrefcount (upb_msg_slot M f) = none) :
    (upb_value_getrefcount val = none →
      upb_msg_set fuel h a f val env =
        h.write a (.omsg (upb_msg_sethas
          { M with slots := M.slots.set f.findex val } f))) ∧
    (∀ r o, upb_field_ismm f = true → val = .vptr (some r) → r ≠ a →
      h.read r = some o →
      upb_msg_set fuel h a f val env =
        (h.write r (upb_obj_setref o (upb_obj_refcount o + 1))).write a
          (.omsg (upb_msg_sethas
            { M with slots := M.slots.set f.findex val } f))) := by
  constructor
  · intro hval
    by_cases hism : upb_field_ismm f = true
    · simp only [upb_msg_set, hM, hism, if_true, upb_value_read,
        upb_field_unref_null fuel h _ f env hslot, hval]
    · have hism' : upb_field_ismm f = false := by
        simpa using hism
      simp only [upb_msg_set, hM, hism', Bool.false_eq_true, if_false]
  · intro r o hism hval hra hr
    subst hval
    have hread : (h.write r
        (upb_obj_setref o (upb_obj_refcount o + 1))).read a =
        some (.omsg M) := by
      rw [Heap.read_write_ne _ hra, hM]
    simp only [upb_msg_set, hM, hism, if_true, upb_value_read,
      upb_field_unref_null fuel h _ f env hslot, upb_value_getrefcount,
      upb_atomic_ref, hr, hread]

/-- The allocation range after `upb_msg_new`. -/
theorem upb_msg_new_length (h : Heap) (md : upb_msgdef) :
    (upb_msg_new h md).1.objs.length = h.objs.length + 1 := by
  simp [upb_msg_new, Heap.alloc]

/-- C10: `upb_field_unref` and `upb_elem_unref` on a `NULL` slot reference
are no-ops on the heap.  Consequently destroying a freshly created
(zero-initialized) message only frees its own block — every other address,
and in particular every ownership count, is untouched — and the first
`setField` of an ownership-managed field on a fresh message decrements no
ownership count and frees no object: the stored value's count is
incremented, every other address is unchanged, and every object live before
the call is still live with a count at least as large. -/
theorem claim_C10 :
    (∀ (fuel : Nat) (h : Heap) (f : upb_fielddef) (env : DefPool),
      upb_field_unref fuel h (.vptr none) f env = h) ∧
    (∀ (fuel : Nat) (h : Heap) (f : upb_fielddef) (env : DefPool),
      upb_elem_unref fuel h (.vptr none) f env = h) ∧
    (∀ (fuel : Nat) (h : Heap) (md : upb_msgdef) (env : DefPool), 1 ≤ fuel →
      _upb_msg_free fuel (upb_msg_new h md).1 (upb_msg_new h md).2 md env =
        ⟨h.objs ++ [none]⟩) ∧
    (∀ (fuel : Nat) (h : Heap) (md : upb_msgdef) (f : upb_fielddef)
        (env : DefPool) (x : Nat) (o : upb_obj),
      upb_field_ismm f = true → h.read x = some o →
      x ≠ (upb_msg_new h md).2 →
      (upb_msg_set fuel (upb_msg_new h md).1 (upb_msg_new h md).2 f
          (.vptr (some x)) env).read x =
        some (upb_obj_setref o (upb_obj_refcount o + 1)) ∧
      (∀ y, y ≠ x → y ≠ (upb_msg_new h md).2 →
        (upb_msg_set fuel (upb_msg_new h md).1 (upb_msg_new h md).2 f
          (.vptr (some x)) env).read y = (upb_msg_new h md).1.read y) ∧
      (∀ y o1, (upb_msg_new h md).1.read y = some o1 →
        ∃ o2, (upb_msg_set fuel (upb_msg_new h md).1 (upb_msg_new h md).2 f
            (.vptr (some x)) env).read y = some o2 ∧
          upb_obj_refcount o1 ≤ upb_obj_refcount o2)) := by
  refine ⟨?_, ?_, ?_, ?_⟩
  · intro fuel h f env
    exact upb_field_unref_null fuel h _ f env rfl
  · intro fuel h f env
    exact upb_elem_unref_null fuel h _ f env rfl
  · intro fuel h md env hfuel
    obtain ⟨fuel, rfl⟩ : ∃ k, fuel = k + 1 := ⟨fuel - 1, (Nat.sub_add_cancel hfuel).symm⟩
    have hread : (upb_msg_new h md).1.read (upb_msg_new h md).2 =
        some (.omsg ⟨1, List.replicate md.fields.length false,
          md.fields.map upb_field_zero⟩) := Heap.read_alloc_self _
    rw [_upb_msg_free]
    simp only [hread]
    rw [fold_unref_fresh fuel env
      ⟨1, List.replicate md.fields.length false, md.fields.map upb_field_zero⟩
      (fun f => upb_msg_slot_fresh
        ⟨1, List.replicate md.fields.length false, md.fields.map upb_field_zero⟩
        md f rfl) md.fields _]
    simp only [upb_msg_new, Heap.alloc, Heap.free]
    rw [List.set_append_right _ _ (Nat.le_refl _), Nat.sub_self]
    rfl
  · intro fuel h md f env x o hism hx hxa
    have hxlt : x < h.objs.length := Heap.read_some_lt hx
    have hM1 : (upb_msg_new h md).1.read (upb_msg_new h md).2 =
        some (.omsg ⟨1, List.replicate md.fields.length false,
          md.fields.map upb_field_zero⟩) := Heap.read_alloc_self _
    have hslot := upb_msg_slot_fresh
      ⟨1, List.replicate md.fields.length false, md.fields.map upb_field_zero⟩
      md f rfl
    have hx1 : (upb_msg_new h md).1.read x = some o := by
      rw [upb_msg_new, Heap.read_alloc_ne _ hxa]
      exact hx
    have hspec := (upb_msg_set_spec fuel (upb_msg_new h md).1
      (upb_msg_new h md).2 f (.vptr (some x)) env _ hM1 hslot).2 x o hism rfl
      hxa hx1
    have hA : (upb_msg_set fuel (upb_msg_new h md).1 (upb_msg_new h md).2 f
        (.vptr (some x)) env).read x =
        some (upb_obj_setref o (upb_obj_refcount o + 1)) := by
      rw [hspec, Heap.read_write_ne _ (Ne.symm hxa), Heap.read_write_self]
      rw [upb_msg_new_length h md]
      exact Nat.lt_succ_of_lt hxlt
    have hB : ∀ y, y ≠ x → y ≠ (upb_msg_new h md).2 →
        (upb_msg_set fuel (upb_msg_new h md).1 (upb_msg_new h md).2 f
          (.vptr (some x)) env).read y = (upb_msg_new h md).1.read y := by
      intro y hyx hya
      rw [hspec, Heap.read_write_ne _ (Ne.symm hya),
        Heap.read_write_ne _ (Ne.symm hyx)]
    refine ⟨hA, hB, ?_⟩
    intro y o1 hy1
    by_cases hyx : y = x
    · subst hyx
      have ho1 : o1 = o := by
        rw [hx1] at hy1
        exact (Option.some_inj.mp hy1).symm
      subst ho1
      refine ⟨upb_obj_setref o1 (upb_obj_refcount o1 + 1), hA, ?_⟩
      rw [upb_obj_refcount_setref]
      exact Nat.le_succ _
    · by_cases hya : y = (upb_msg_new h md).2
      · subst hya
        have ho1 : o1 = .omsg ⟨1, List.replicate md.fields.length false,
            md.fields.map upb_field_zero⟩ := by
          rw [hM1] at hy1
          exact (Option.some_inj.mp hy1).symm
        have hlen : (upb_msg_new h md).2 <
            ((upb_msg_new h md).1.write x
              (upb_obj_setref o (upb_obj_refcount o + 1))).objs.length := by
          rw [Heap.write_length, upb_msg_new_length]
          exact Nat.lt_succ_self _
        have hread2 : (upb_msg_set fuel (upb_msg_new h md).1
            (upb_msg_new h md).2 f (.vptr (some x)) env).read
              (upb_msg_new h md).2 =
            some (.omsg (upb_msg_sethas
              { refcount := 1,
                hasbits := List.replicate md.fields.length false,
                slots := (md.fields.map upb_field_zero).set f.findex
                  (.vptr (some x)) } f)) := by
          rw [hspec]
          exact Heap.read_write_self _ hlen
        refine ⟨_, hread2, ?_⟩
        rw [ho1]
        exact Nat.le_refl _
      · exact ⟨o1, by rw [hB y hyx hya]; exact hy1, Nat.le_refl _⟩

/-- C10 witness: the null-unref clause, destruction of a fresh one-field
message in the empty heap, and the first set of a string field on a fresh
message (the string's count goes from 1 to 2, nothing is freed). -/
theorem claim_C10_witness :
    upb_field_unref 2 exHstr (.vptr none) exFstr [] = exHstr ∧
    _upb_msg_free 2 (upb_msg_new exH0 exMd1).1 (upb_msg_new exH0 exMd1).2
      exMd1 [] = ⟨[none]⟩ ∧
    (upb_msg_set 2 (upb_msg_new exHstr exMdStr).1 (upb_msg_new exHstr exMdStr).2
      exFstr (.vptr (some 0)) []).read 0 = some (.ostr 2) := by
  refine ⟨claim_C10.1 2 exHstr exFstr [],
    claim_C10.2.2.1 2 exH0 exMd1 [] (by decide), ?_⟩
  have h4 := claim_C10.2.2.2 2 exHstr exMdStr exFstr [] 0 (.ostr 1)
    (by decide) rfl (by decide)
  exact h4.1

/-- C1 (amended): `upb_msg_get` on a non-present field whose kind is not
sub-message returns the schema default — but it does mutate the message: the
default is cached back via `upb_msg_set` (upb_msg.c line 175, outside the
sub-message branch), so afterwards the presence bit is set and the slot
holds the default.  What survives of the frame claim: for a default with no
refcount handle (every inline scalar), the only heap change is the one
in-place block update — no ownership count anywhere is incremented or
decremented, and the message's own count is unchanged; for an
ownership-managed non-sub-message kind the cached default's count is
incremented by the caching set. -/
theorem claim_C1 (fuel : Nat) (h : Heap) (a : Nat) (f : upb_fielddef)
    (env : DefPool) (M : upb_msgobj)
    (hM : h.read a = some (.omsg M))
    (hsub : upb_issubmsg f = false)
    (habs : upb_msg_has h a f = false)
    (hslot : upb_value_getrefcount (upb_msg_slot M f) = none)
    (hbit : f.findex < M.hasbits.length)
    (hslotlen : f.findex < M.slots.length) :
    upb_msg_get fuel h a f env =
      (upb_msg_set fuel h a f f.default_value env, f.default_value) ∧
    (upb_value_getrefcount f.default_value = none →
      upb_msg_set fuel h a f f.default_value env =
        h.write a (.omsg (upb_msg_sethas
          { M with slots := M.slots.set f.findex f.default_value } f)) ∧
      upb_msg_has (upb_msg_set fuel h a f f.default_value env) a f = true ∧
      (∀ y, y ≠ a →
        (upb_msg_set fuel h a f f.default_value env).read y = h.read y) ∧
      (∃ M1, (upb_msg_set fuel h a f f.default_value env).read a =
          some (.omsg M1) ∧ M1.refcount = M.refcount ∧
          upb_msg_slot M1 f = f.default_value)) ∧
    (∀ r o, upb_field_ismm f = true → f.default_value = .vptr (some r) →
      r ≠ a → h.read r = some o →
      (upb_msg_set fuel h a f f.default_value env).read r =
        some (upb_obj_setref o (upb_obj_refcount o + 1))) := by
  have halt : a < h.objs.length := Heap.read_some_lt hM
  refine ⟨?_, ?_, ?_⟩
  · simp only [upb_msg_get, habs, hsub, Bool.false_eq_true, if_false, if_true]
  · intro hdef
    have hset := (upb_msg_set_spec fuel h a f f.default_value env M hM
      hslot).1 hdef
    refine ⟨hset, ?_, ?_, ?_⟩
    · rw [upb_msg_has, hset, Heap.read_write_self _ halt]
      simp only [upb_msg_sethas]
      rw [List.getD_eq_getElem?_getD,
        List.getElem?_set_self (by simpa using hbit)]
      rfl
    · intro y hya
      rw [hset, Heap.read_write_ne _ (Ne.symm hya)]
    · refine ⟨_, by rw [hset]; exact Heap.read_write_self _ halt, ?_, ?_⟩
      · simp [upb_msg_sethas]
      · rw [upb_msg_slot]
        simp only [upb_msg_sethas]
        rw [List.getD_eq_getElem?_getD,
          List.getElem?_set_self (by simpa using hslotlen)]
        rfl
  · intro r o hism hdef hra hr
    have hset := (upb_msg_set_spec fuel h a f f.default_value env M hM
      hslot).2 r o hism hdef hra hr
    rw [hset, Heap.read_write_ne _ (Ne.symm hra), Heap.read_write_self]
    exact Heap.read_some_lt hr

/-- C1 counterexample: a fresh message with one absent scalar field of
default 5 — `upb_msg_get` returns the default, but afterwards the field's
presence bit is set, refuting the claim's "does not mutate M: afterwards
the field's presence bit is still clear". -/
theorem claim_C1_counterexample :
    (upb_msg_get 2 (upb_msg_new exH0 exMd1).1 (upb_msg_new exH0 exMd1).2
      exF_i32 []).2 = .vint 5 ∧
    ¬ upb_msg_has (upb_msg_get 2 (upb_msg_new exH0 exMd1).1
        (upb_msg_new exH0 exMd1).2 exF_i32 []).1
      (upb_msg_new exH0 exMd1).2 exF_i32 = false :=
  ⟨rfl, fun hcontra => Bool.noConfusion hcontra⟩

/-- C1 witness: the amended claim applied to a fresh one-scalar-field
message: the get caches the default through `upb_msg_set` and the field is
present afterwards. -/
theorem claim_C1_witness :
    upb_msg_get 2 (upb_msg_new exH0 exMd1).1 (upb_msg_new exH0 exMd1).2
        exF_i32 [] =
      (upb_msg_set 2 (upb_msg_new exH0 exMd1).1 (upb_msg_new exH0 exMd1).2
        exF_i32 (.vint 5) [], .vint 5) ∧
    upb_msg_has (upb_msg_set 2 (upb_msg_new exH0 exMd1).1
        (upb_msg_new exH0 exMd1).2 exF_i32 (.vint 5) [])
      (upb_msg_new exH0 exMd1).2 exF_i32 = true := by
  have hc := claim_C1 2 (upb_msg_new exH0 exMd1).1 (upb_msg_new exH0 exMd1).2
    exF_i32 [] ⟨1, [false], [.vint 0]⟩ rfl (by decide) (by decide)
    (by decide) (by decide) (by decide)
  exact ⟨hc.1, (hc.2.1 (by decide)).2.1⟩

/-- The allocation range after `Heap.alloc`. -/
theorem Heap.alloc_length (h : Heap) (o : upb_obj) :
    (h.alloc o).1.objs.length = h.objs.length + 1 := by
  simp [Heap.alloc]

/-- C5: on a non-present sub-message field, the first `upb_msg_get`
allocates a fresh message at the next free address, copies the default
prototype's presence bits and slots verbatim, initializes the new object's
own count to 0 (`upb_atomic_refcount_init(&m->refcount, 0)`) and then caches
it via `upb_msg_set`, which takes the first and only reference — so the
materialized object ends with count exactly 1.  Afterwards the field is
present and its slot holds the new address, and a second `upb_msg_get` with
no intervening mutation returns the very same object identity without
touching the heap. -/
theorem claim_C5 (fuel : Nat) (h : Heap) (a aD : Nat) (f : upb_fielddef)
    (env : DefPool) (M D : upb_msgobj)
    (hM : h.read a = some (.omsg M))
    (hsub : upb_issubmsg f = true)
    (habs : upb_msg_has h a f = false)
    (hslot : upb_value_getrefcount (upb_msg_slot M f) = none)
    (hdef : f.default_value = .vptr (some aD))
    (hD : h.read aD = some (.omsg D))
    (hbit : f.findex < M.hasbits.length)
    (hslotlen : f.findex < M.slots.length) :
    (upb_msg_get fuel h a f env).2 = .vptr (some h.objs.length) ∧
    h.read h.objs.length = none ∧
    (upb_msg_get fuel h a f env).1.read h.objs.length =
      some (.omsg ⟨1, D.hasbits, D.slots⟩) ∧
    upb_msg_has (upb_msg_get fuel h a f env).1 a f = true ∧
    (∃ M1, (upb_msg_get fuel h a f env).1.read a = some (.omsg M1) ∧
      upb_msg_slot M1 f = .vptr (some h.objs.length)) ∧
    upb_msg_get fuel (upb_msg_get fuel h a f env).1 a f env =
      ((upb_msg_get fuel h a f env).1, .vptr (some h.objs.length)) := by
  have halt : a < h.objs.length := Heap.read_some_lt hM
  have hism : upb_field_ismm f = true := by
    simp [upb_field_ismm, hsub]
  have haN : (h.alloc (.omsg ⟨0, D.hasbits, D.slots⟩)).2 = h.objs.length := rfl
  have hgeteq : upb_msg_get fuel h a f env =
      (upb_msg_set fuel (h.alloc (.omsg ⟨0, D.hasbits, D.slots⟩)).1 a f
        (.vptr (some h.objs.length)) env, .vptr (some h.objs.length)) := by
    simp only [upb_msg_get, habs, hsub, if_true, hdef, hD, haN]
  have hM1 : (h.alloc (.omsg ⟨0, D.hasbits, D.slots⟩)).1.read a =
      some (.omsg M) := by
    rw [Heap.read_alloc_ne _ (Nat.ne_of_lt halt)]
    exact hM
  have hreadN : (h.alloc (.omsg ⟨0, D.hasbits, D.slots⟩)).1.read
      h.objs.length = some (.omsg ⟨0, D.hasbits, D.slots⟩) := by
    rw [← haN]
    exact Heap.read_alloc_self _
  have hspec := (upb_msg_set_spec fuel
    (h.alloc (.omsg ⟨0, D.hasbits, D.slots⟩)).1 a f
    (.vptr (some h.objs.length)) env M hM1 hslot).2 h.objs.length
    (.omsg ⟨0, D.hasbits, D.slots⟩) hism rfl (Ne.symm (Nat.ne_of_lt halt)) hreadN
  have hC3 : (upb_msg_get fuel h a f env).1.read h.objs.length =
      some (.omsg ⟨1, D.hasbits, D.slots⟩) := by
    rw [hgeteq]
    show (upb_msg_set fuel _ a f _ env).read _ = _
    rw [hspec, Heap.read_write_ne _ (Nat.ne_of_lt halt),
      Heap.read_write_self _ (by rw [Heap.alloc_length]; exact Nat.lt_succ_self _)]
    rfl
  have hC4 : upb_msg_has (upb_msg_get fuel h a f env).1 a f = true := by
    rw [hgeteq]
    show upb_msg_has (upb_msg_set fuel _ a f _ env) a f = true
    rw [upb_msg_has, hspec, Heap.read_write_self _ (by
      rw [Heap.write_length, Heap.alloc_length]
      exact Nat.lt_succ_of_lt halt)]
    simp only [upb_msg_sethas]
    rw [List.getD_eq_getElem?_getD,
      List.getElem?_set_self (by simpa using hbit)]
    rfl
  have hreadA : (upb_msg_get fuel h a f env).1.read a =
      some (.omsg (upb_msg_sethas { M with slots := M.slots.set f.findex (.vptr (some h.objs.length)) } f)) := by
    rw [hgeteq]
    show (upb_msg_set fuel _ a f _ env).read a = _
    rw [hspec, Heap.read_write_self _ (by
      rw [Heap.write_length, Heap.alloc_length]
      exact Nat.lt_succ_of_lt halt)]
  have hslot1 : upb_msg_slot (upb_msg_sethas { M with slots := M.slots.set f.findex (.vptr (some h.objs.length)) } f) f =
      .vptr (some h.objs.length) := by
    rw [upb_msg_slot]
    simp only [upb_msg_sethas]
    rw [List.getD_eq_getElem?_getD,
      List.getElem?_set_self (by simpa using hslotlen)]
    rfl
  refine ⟨by rw [hgeteq], ?_, hC3, hC4, ⟨_, hreadA, hslot1⟩, ?_⟩
  · have hnone : h.objs[h.objs.length]? = none :=
      List.getElem?_eq_none (Nat.le_refl _)
    rw [Heap.read, List.getD_eq_getElem?_getD, hnone]
    rfl
  · rw [upb_msg_get, if_neg (by rw [hC4]; exact fun he => Bool.noConfusion he)]
    simp only [hreadA, upb_value_read, hslot1]

/-- C5 witness: the claim applied to a fresh message whose layout has one
sub-message field defaulting to the prototype at address 0 (one present
scalar 7): materialization allocates address 2, copies the prototype
verbatim with final count 1, and the second get returns the same address. -/
theorem claim_C5_witness :
    (upb_msg_get 2 (upb_msg_new exHC5 exMdP).1 (upb_msg_new exHC5 exMdP).2
      exFsub []).2 = .vptr (some 2) ∧
    (upb_msg_get 2 (upb_msg_new exHC5 exMdP).1 (upb_msg_new exHC5 exMdP).2
      exFsub []).1.read 2 = some (.omsg ⟨1, [true], [.vint 7]⟩) ∧
    upb_msg_get 2 (upb_msg_get 2 (upb_msg_new exHC5 exMdP).1
        (upb_msg_new exHC5 exMdP).2 exFsub []).1
      (upb_msg_new exHC5 exMdP).2 exFsub [] =
      ((upb_msg_get 2 (upb_msg_new exHC5 exMdP).1 (upb_msg_new exHC5 exMdP).2
        exFsub []).1, .vptr (some 2)) := by
  have hc := claim_C5 2 (upb_msg_new exHC5 exMdP).1 (upb_msg_new exHC5 exMdP).2
    0 exFsub [] ⟨1, [false], [.vptr none]⟩ ⟨1, [true], [.vint 7]⟩
    rfl (by decide) (by decide) (by decide) rfl rfl
    (by decide) (by decide)
  exact ⟨hc.1, hc.2.2.1, hc.2.2.2.2.2⟩

/-- The release loop of `upb_msg_clear` is the identity when every
ownership-managed slot of the block holds no reference. -/
theorem fold_clear_id (fuel : Nat) (env : DefPool) (M : upb_msgobj) :
    ∀ fs : List upb_fielddef,
      (∀ f ∈ fs, upb_field_ismm f = true →
        upb_value_getrefcount (upb_msg_slot M f) = none) →
      ∀ h1 : Heap,
        fs.foldl
          (fun hh f =>
            if upb_field_ismm f && M.hasbits.getD f.findex false then
              upb_field_unref fuel hh
                (upb_value_read (upb_msg_slot M f) f.ftype) f env
            else hh) h1 = h1 := by
  intro fs
  induction fs with
  | nil =>
    intro _ h1
    rfl
  | cons f fs ih =>
    intro hall h1
    rw [List.foldl_cons]
    by_cases hg : (upb_field_ismm f && M.hasbits.getD f.findex false) = true
    · rw [if_pos hg, upb_value_read, upb_field_unref_null fuel h1 _ f env
        (hall f (by simp) (Bool.and_eq_true_iff.mp hg).1)]
      exact ih (fun f' hf' => hall f' (by simp [hf'])) h1
    · rw [if_neg hg]
      exact ih (fun f' hf' => hall f' (by simp [hf'])) h1

/-- C6: recycling a message slot.  With ownership count 1, the same block is
reused in place — the slot pointer is unchanged, no allocation happens, and
every presence bit is reset to false (with the slots re-zeroed, per the
spec's destroy-in-place-and-re-zero description of `upb_msg_clear`).  With
count at least 2, a freshly allocated empty message is stored into the slot,
the original block keeps its presence bits and slot contents untouched, and
its count drops by exactly one.  (The sole-owner branch is stated for a
message whose ownership-managed slots hold no references, so the release
loop of the clear is a no-op; the presence bits of inline scalar fields may
still be set.) -/
theorem claim_C6 (fuel : Nat) (h : Heap) (a : Nat) (md : upb_msgdef)
    (env : DefPool) (M : upb_msgobj)
    (hM : h.read a = some (.omsg M))
    (hnullmm : ∀ f ∈ md.fields, upb_field_ismm f = true →
      upb_value_getrefcount (upb_msg_slot M f) = none) :
    (M.refcount = 1 →
      upb_msg_recycle fuel h (some a) md env =
        (h.write a (.omsg ⟨M.refcount, List.replicate md.fields.length false,
          md.fields.map upb_field_zero⟩), some a)) ∧
    (2 ≤ M.refcount →
      (upb_msg_recycle fuel h (some a) md env).2 = some h.objs.length ∧
      h.objs.length ≠ a ∧
      (upb_msg_recycle fuel h (some a) md env).1.read a =
        some (.omsg ⟨M.refcount - 1, M.hasbits, M.slots⟩) ∧
      (upb_msg_recycle fuel h (some a) md env).1.read h.objs.length =
        some (.omsg ⟨1, List.replicate md.fields.length false,
          md.fields.map upb_field_zero⟩) ∧
      (∀ y, y ≠ a → y ≠ h.objs.length →
        (upb_msg_recycle fuel h (some a) md env).1.read y = h.read y)) := by
  have halt : a < h.objs.length := Heap.read_some_lt hM
  constructor
  · intro hc1
    have honly : upb_atomic_only h a = true := by
      rw [upb_atomic_only, hM]
      show (M.refcount == 1) = true
      rw [hc1]
      rfl
    have hclear : upb_msg_clear fuel h a md env =
        h.write a (.omsg ⟨M.refcount, List.replicate md.fields.length false,
          md.fields.map upb_field_zero⟩) := by
      rw [upb_msg_clear]
      simp only [hM]
      rw [fold_clear_id fuel env M md.fields hnullmm h]
      simp only [hM]
    rw [upb_msg_recycle.eq_def]
    simp only [honly, if_true, hclear]
  · intro hc2
    have honly : upb_atomic_only h a = false := by
      rw [upb_atomic_only, hM]
      show (M.refcount == 1) = false
      exact beq_eq_false_iff_ne.mpr (fun he => absurd (he ▸ hc2) (by decide))
    have hunref : upb_msg_unref fuel h (some a) md env =
        h.write a (.omsg ⟨M.refcount - 1, M.hasbits, M.slots⟩) := by
      rw [upb_msg_unref]
      simp only [hM]
      rw [if_neg (show ¬ upb_obj_refcount (.omsg M) ≤ 1 from
        fun hle => absurd (Nat.le_trans hc2 hle) (by decide))]
      rfl
    have hrec : upb_msg_recycle fuel h (some a) md env =
        ((upb_msg_new (h.write a
            (.omsg ⟨M.refcount - 1, M.hasbits, M.slots⟩)) md).1,
         some (upb_msg_new (h.write a
            (.omsg ⟨M.refcount - 1, M.hasbits, M.slots⟩)) md).2) := by
      rw [upb_msg_recycle.eq_def]
      simp only [honly, Bool.false_eq_true, if_false, hunref]
    have hwl : (h.write a
        (.omsg ⟨M.refcount - 1, M.hasbits, M.slots⟩)).objs.length =
        h.objs.length := Heap.write_length
    refine ⟨?_, Ne.symm (Nat.ne_of_lt halt), ?_, ?_, ?_⟩
    · rw [hrec]
      show some (h.write a
        (.omsg ⟨M.refcount - 1, M.hasbits, M.slots⟩)).objs.length = _
      rw [hwl]
    · rw [hrec]
      show (Heap.alloc _ _).1.read a = _
      rw [Heap.read_alloc_ne _ (by rw [hwl]; exact Nat.ne_of_lt halt),
        Heap.read_write_self _ halt]
    · rw [hrec]
      show (Heap.alloc _ _).1.read h.objs.length = _
      rw [← hwl]
      exact Heap.read_alloc_self _
    · intro y hya hylen
      rw [hrec]
      show (Heap.alloc _ _).1.read y = _
      rw [Heap.read_alloc_ne _ (by rw [hwl]; exact hylen),
        Heap.read_write_ne _ (Ne.symm hya)]

/-- C6 witness: the claim applied to a one-scalar-field message with a
present field: with count 1 the block at address 0 is cleared in place and
the slot still points at address 0; with count 2 a fresh message appears at
address 1, and the original keeps its presence bit and content with count
decremented to 1. -/
theorem claim_C6_witness :
    upb_msg_recycle 2 exHC6 (some 0) exMd1 [] =
      (⟨[some (.omsg ⟨1, [false], [.vint 0]⟩)]⟩, some 0) ∧
    (upb_msg_recycle 2 exHC6b (some 0) exMd1 []).1.read 0 =
      some (.omsg ⟨1, [true], [.vint 9]⟩) ∧
    (upb_msg_recycle 2 exHC6b (some 0) exMd1 []).2 = some 1 := by
  have hA := (claim_C6 2 exHC6 0 exMd1 [] ⟨1, [true], [.vint 9]⟩
    rfl (by decide)).1 rfl
  have hB := (claim_C6 2 exHC6b 0 exMd1 [] ⟨2, [true], [.vint 9]⟩
    rfl (by decide)).2 (by decide)
  refine ⟨?_, hB.2.2.1, hB.1⟩
  rw [hA]
  exact rfl

/-- One-step unfolding of `upb_elem_unref` at positive fuel. -/
theorem upb_elem_unref_succ (fuel : Nat) (h : Heap) (v : upb_value)
    (f : upb_fielddef) (env : DefPool) :
    upb_elem_unref (fuel + 1) h v f env =
      match upb_value_getrefcount v with
      | some a =>
        match h.read a with
        | some o =>
          if upb_obj_refcount o ≤ 1 then upb_elem_free fuel h v f env
          else h.write a (upb_obj_setref o (upb_obj_refcount o - 1))
        | none => h
      | none => h := rfl

/-- `upb_elem_free` on a string element frees exactly the string object. -/
theorem upb_elem_free_str (fuel : Nat) (h : Heap) (x : Nat)
    (f : upb_fielddef) (env : DefPool)
    (hstr : upb_isstring f = true) (hsub : upb_issubmsg f = false) :
    upb_elem_free (fuel + 1) h (.vptr (some x)) f env = h.free x := by
  show (if upb_issubmsg f then
      match (upb_value.vptr (some x) : upb_value), f.subdef with
      | .vptr (some a), some si => _upb_msg_free fuel h a (env.getD si ⟨[]⟩) env
      | _, _ => h
    else if upb_isstring f then
      match (upb_value.vptr (some x) : upb_value) with
      | .vptr (some a) => h.free a
      | _ => h
    else h) = h.free x
  rw [hsub, hstr]
  simp

/-- The element-release loop of `_upb_array_free` over string elements:
every non-`NULL` reference in the processed list is decremented exactly
once, the string is freed exactly when its count was 1, and every address
not referenced by the list is untouched.  Stated for pairwise-distinct
references (no slot aliasing another). -/
theorem upb_str_unref_loop (fuel : Nat) (f : upb_fielddef) (env : DefPool)
    (hstr : upb_isstring f = true) (hsub : upb_issubmsg f = false)
    (hfuel : 2 ≤ fuel) :
    ∀ (vs : List upb_value) (h : Heap),
      (∀ v ∈ vs, v = .vptr none ∨
        ∃ x c, v = .vptr (some x) ∧ h.read x = some (.ostr c) ∧ 1 ≤ c) →
      List.Pairwise
        (fun v w => ∀ x : Nat, v = .vptr (some x) → w ≠ .vptr (some x)) vs →
      (∀ y : Nat, .vptr (some y) ∉ vs →
        (vs.foldl (fun hh v => upb_elem_unref fuel hh v f env) h).read y =
          h.read y) ∧
      (∀ x c, .vptr (some x) ∈ vs → h.read x = some (.ostr c) →
        (2 ≤ c →
          (vs.foldl (fun hh v => upb_elem_unref fuel hh v f env) h).read x =
            some (.ostr (c - 1))) ∧
        (c = 1 →
          (vs.foldl (fun hh v => upb_elem_unref fuel hh v f env) h).read x =
            none)) := by
  obtain ⟨fuel, rfl⟩ : ∃ k, fuel = k + 1 + 1 := ⟨fuel - 2, (Nat.sub_add_cancel hfuel).symm⟩
  intro vs
  induction vs with
  | nil =>
    intro h _ _
    refine ⟨fun y _ => rfl, fun x c hx => absurd hx (List.not_mem_nil _)⟩
  | cons v vs ih =>
    intro h hmem hpw
    obtain ⟨hhead, htail⟩ := List.pairwise_cons.mp hpw
    rcases hmem v (List.mem_cons_self v vs) with hvnull | ⟨x0, c0, hv, hx0, hc0⟩
    · subst hvnull
      rw [List.foldl_cons, upb_elem_unref_null (fuel + 1 + 1) h (.vptr none) f env rfl]
      have hrest := ih h (fun v' hv' => hmem v' (List.mem_cons_of_mem _ hv')) htail
      refine ⟨fun y hy => hrest.1 y (fun hmem' => hy (List.mem_cons_of_mem _ hmem')), ?_⟩
      intro x c hx hcread
      rcases List.mem_cons.mp hx with heq | hx'
      · exact absurd heq (fun hcon => Option.noConfusion (upb_value.vptr.inj hcon))
      · exact hrest.2 x c hx' hcread
    · subst hv
      have hx0ne : ∀ v' ∈ vs, ∀ x' : Nat, v' = .vptr (some x') → x' ≠ x0 := by
        intro v' hv' x' hveq hxx
        subst hxx
        exact hhead v' hv' x' rfl (by rw [hveq])
      have hnotin : upb_value.vptr (some x0) ∉ vs := by
        intro hin
        exact hhead _ hin x0 rfl rfl
      by_cases hc1 : c0 = 1
      · have h1eq : upb_elem_unref (fuel + 1 + 1) h (.vptr (some x0)) f env =
            h.free x0 := by
          rw [upb_elem_unref_succ]
          simp only [upb_value_getrefcount, hx0]
          rw [if_pos (show upb_obj_refcount (.ostr c0) ≤ 1 from Nat.le_of_eq hc1)]
          exact upb_elem_free_str fuel h x0 f env hstr hsub
        rw [List.foldl_cons, h1eq]
        have hmem1 : ∀ v' ∈ vs, v' = .vptr none ∨
            ∃ x c, v' = .vptr (some x) ∧
              (h.free x0).read x = some (.ostr c) ∧ 1 ≤ c := by
          intro v' hv'
          rcases hmem v' (List.mem_cons_of_mem _ hv') with hn | ⟨x', c', he, hr, hcge⟩
          · exact Or.inl hn
          · refine Or.inr ⟨x', c', he, ?_, hcge⟩
            rw [Heap.read_free_ne (Ne.symm (hx0ne v' hv' x' he))]
            exact hr
        have hrest := ih (h.free x0) hmem1 htail
        constructor
        · intro y hy
          have hynot : upb_value.vptr (some y) ∉ vs := fun hmem' =>
            hy (List.mem_cons_of_mem _ hmem')
          have hyx0 : y ≠ x0 := by
            intro he
            subst he
            exact hy (List.mem_cons_self _ _)
          rw [hrest.1 y hynot, Heap.read_free_ne (Ne.symm hyx0)]
        · intro x c hx hcread
          rcases List.mem_cons.mp hx with heq | hx'
          · have hxx0 : x = x0 := by
              injection heq with h1
              exact Option.some_inj.mp h1
            subst hxx0
            have hcc : c = c0 := by
              rw [hx0] at hcread
              have h2 := Option.some_inj.mp hcread
              injection h2 with h3
              exact h3.symm
            subst hcc
            refine ⟨fun hge => absurd (hc1 ▸ hge) (by decide), fun _ => ?_⟩
            rw [hrest.1 x hnotin, Heap.read_free_self]
          · have hxne : x ≠ x0 := by
              intro he
              subst he
              exact hnotin hx'
            have hcread1 : (h.free x0).read x = some (.ostr c) := by
              rw [Heap.read_free_ne (Ne.symm hxne)]
              exact hcread
            exact hrest.2 x c hx' hcread1
      · have h1eq : upb_elem_unref (fuel + 1 + 1) h (.vptr (some x0)) f env =
            h.write x0 (.ostr (c0 - 1)) := by
          rw [upb_elem_unref_succ]
          simp only [upb_value_getrefcount, hx0]
          rw [if_neg (show ¬ upb_obj_refcount (.ostr c0) ≤ 1 from fun hle => hc1 (Nat.le_antisymm hle hc0))]
          rfl
        rw [List.foldl_cons, h1eq]
        have hmem1 : ∀ v' ∈ vs, v' = .vptr none ∨
            ∃ x c, v' = .vptr (some x) ∧
              (h.write x0 (.ostr (c0 - 1))).read x = some (.ostr c) ∧
              1 ≤ c := by
          intro v' hv'
          rcases hmem v' (List.mem_cons_of_mem _ hv') with hn | ⟨x', c', he, hr, hcge⟩
          · exact Or.inl hn
          · refine Or.inr ⟨x', c', he, ?_, hcge⟩
            rw [Heap.read_write_ne _ (Ne.symm (hx0ne v' hv' x' he))]
            exact hr
        have hrest := ih (h.write x0 (.ostr (c0 - 1))) hmem1 htail
        constructor
        · intro y hy
          have hynot : upb_value.vptr (some y) ∉ vs := fun hmem' =>
            hy (List.mem_cons_of_mem _ hmem')
          have hyx0 : y ≠ x0 := by
            intro he
            subst he
            exact hy (List.mem_cons_self _ _)
          rw [hrest.1 y hynot, Heap.read_write_ne _ (Ne.symm hyx0)]
        · intro x c hx hcread
          rcases List.mem_cons.mp hx with heq | hx'
          · have hxx0 : x = x0 := by
              injection heq with h1
              exact Option.some_inj.mp h1
            subst hxx0
            have hcc : c = c0 := by
              rw [hx0] at hcread
              have h2 := Option.some_inj.mp hcread
              injection h2 with h3
              exact h3.symm
            subst hcc
            refine ⟨fun _ => ?_, fun h1 => absurd h1 hc1⟩
            rw [hrest.1 x hnotin, Heap.read_write_self]
            exact Heap.read_some_lt hx0
          · have hxne : x ≠ x0 := by
              intro he
              subst he
              exact hnotin hx'
            have hcread1 : (h.write x0 (.ostr (c0 - 1))).read x =
                some (.ostr c) := by
              rw [Heap.read_write_ne _ (Ne.symm hxne)]
              exact hcread
            exact hrest.2 x c hx' hcread1

/-- One-step unfolding of `_upb_array_free` at positive fuel. -/
theorem _upb_array_free_succ (fuel : Nat) (h : Heap) (aA : Nat)
    (f : upb_fielddef) (env : DefPool) :
    _upb_array_free (fuel + 1) h aA f env =
      match h.read aA with
      | some (.oarr A) =>
        (if upb_elem_ismm f then
          ((List.range A.size).map
            (fun i => upb_value_read (A.ptr.getD i (.vint 0)) f.ftype)).foldl
            (fun hh v => upb_elem_unref fuel hh v f env) h
        else h).free aA
      | _ => h := rfl

/-- C2 (amended: the released index range is `[0, capacity)` — the C loop
bound is `arr->size` — not `[0, length)`): destroying an array whose element
kind is ownership-managed releases the element slot at every index below the
allocated capacity exactly once — decrementing each non-`NULL` reference and
destroying those that reach zero (slots in `[length, capacity)` left over by
a recycle or shrink are released too; never-populated slots are `NULL` and
releasing them is a no-op) — and then frees the element buffer and the array
object.  Stated for string elements with pairwise-distinct non-null
references. -/
theorem claim_C2 (fuel : Nat) (h : Heap) (aA : Nat) (f : upb_fielddef)
    (env : DefPool) (A : upb_arrayobj)
    (hA : h.read aA = some (.oarr A))
    (hstr : upb_isstring f = true) (hsub : upb_issubmsg f = false)
    (hfuel : 3 ≤ fuel)
    (helem : ∀ i, i < A.size → A.ptr.getD i (.vint 0) = .vptr none ∨
      ∃ x c, A.ptr.getD i (.vint 0) = .vptr (some x) ∧ x ≠ aA ∧
        h.read x = some (.ostr c) ∧ 1 ≤ c)
    (hdist : ∀ i j x, i < j → j < A.size →
      A.ptr.getD i (.vint 0) = .vptr (some x) →
      A.ptr.getD j (.vint 0) ≠ .vptr (some x)) :
    (_upb_array_free fuel h aA f env).read aA = none ∧
    (∀ i x c, i < A.size → A.ptr.getD i (.vint 0) = .vptr (some x) →
      h.read x = some (.ostr c) →
      (2 ≤ c → (_upb_array_free fuel h aA f env).read x =
        some (.ostr (c - 1))) ∧
      (c = 1 → (_upb_array_free fuel h aA f env).read x = none)) ∧
    (∀ y, y ≠ aA →
      (∀ i, i < A.size → A.ptr.getD i (.vint 0) ≠ .vptr (some y)) →
      (_upb_array_free fuel h aA f env).read y = h.read y) := by
  obtain ⟨fuel, rfl⟩ : ∃ k, fuel = k + 1 :=
    ⟨fuel - 1, (Nat.sub_add_cancel (Nat.le_trans (by decide) hfuel)).symm⟩
  have hismm : upb_elem_ismm f = true := by
    simp [upb_elem_ismm, hstr]
  have harr : _upb_array_free (fuel + 1) h aA f env =
      (((List.range A.size).map
        (fun i => A.ptr.getD i (.vint 0))).foldl
        (fun hh v => upb_elem_unref fuel hh v f env) h).free aA := by
    rw [_upb_array_free_succ]
    simp only [hA, hismm, if_true, upb_value_read]
  have hmemvs : ∀ v ∈ (List.range A.size).map
      (fun i => A.ptr.getD i (.vint 0)), v = .vptr none ∨
      ∃ x c, v = .vptr (some x) ∧ h.read x = some (.ostr c) ∧ 1 ≤ c := by
    intro v hv
    obtain ⟨i, hi, rfl⟩ := List.mem_map.mp hv
    rcases helem i (List.mem_range.mp hi) with hn | ⟨x, c, he, -, hr, hc⟩
    · exact Or.inl hn
    · exact Or.inr ⟨x, c, he, hr, hc⟩
  have hpwvs : List.Pairwise
      (fun v w => ∀ x : Nat, v = .vptr (some x) → w ≠ .vptr (some x))
      ((List.range A.size).map (fun i => A.ptr.getD i (.vint 0))) := by
    rw [List.pairwise_map]
    refine (List.pairwise_lt_range A.size).imp_of_mem ?_
    intro i j hi hj hij x hieq
    exact hdist i j x hij (List.mem_range.mp hj) hieq
  have hloop := upb_str_unref_loop fuel f env hstr hsub (Nat.le_of_succ_le_succ hfuel)
    ((List.range A.size).map (fun i => A.ptr.getD i (.vint 0))) h hmemvs hpwvs
  refine ⟨?_, ?_, ?_⟩
  · rw [harr, Heap.read_free_self]
  · intro i x c hi hslot hread
    have hxne : x ≠ aA := by
      rcases helem i hi with hn | ⟨x', c', he, hne, -, -⟩
      · rw [hn] at hslot
        exact absurd hslot (by simp)
      · rw [he] at hslot
        have : x' = x := by
          injection hslot with h1
          exact Option.some_inj.mp h1
        exact this ▸ hne
    have hmemx : upb_value.vptr (some x) ∈ (List.range A.size).map
        (fun i => A.ptr.getD i (.vint 0)) := by
      refine List.mem_map.mpr ⟨i, List.mem_range.mpr hi, hslot⟩
    have hx := hloop.2 x c hmemx hread
    constructor
    · intro hge
      rw [harr, Heap.read_free_ne (Ne.symm hxne)]
      exact hx.1 hge
    · intro hc1
      rw [harr, Heap.read_free_ne (Ne.symm hxne)]
      exact hx.2 hc1
  · intro y hy hslots
    have hnotin : upb_value.vptr (some y) ∉ (List.range A.size).map
        (fun i => A.ptr.getD i (.vint 0)) := by
      intro hin
      obtain ⟨i, hi, heq⟩ := List.mem_map.mp hin
      exact hslots i (List.mem_range.mp hi) heq
    rw [harr, Heap.read_free_ne (Ne.symm hy)]
    exact hloop.1 y hnotin

/-- C2 counterexample: address 1 holds a string array with logical length 0
but capacity 2 (the state right after `upb_array_recycle` of a one-element
array); its buffer slot 0 still references the string at address 0, whose
count is 2.  `_upb_array_free` decrements that count to 1 even though index
0 is not below the logical length — the loop bound in the C code is
`arr->size`, refuting "no element at an index ≥ length has its count
touched". -/
theorem claim_C2_counterexample :
    _upb_array_free 3 exHC2 1 exFstrArr [] = ⟨[some (.ostr 1), none]⟩ ∧
    exHC2.read 0 = some (.ostr 2) ∧
    (_upb_array_free 3 exHC2 1 exFstrArr []).read 0 = some (.ostr 1) :=
  ⟨rfl, rfl, rfl⟩

/-- C2 witness: the amended claim applied to the concrete recycled string
array: destroying it frees the array object and decrements the stale
reference in the capacity range from 2 to 1. -/
theorem claim_C2_witness :
    (_upb_array_free 3 exHC2 1 exFstrArr []).read 1 = none ∧
    (_upb_array_free 3 exHC2 1 exFstrArr []).read 0 = some (.ostr 1) := by
  have hc := claim_C2 3 exHC2 1 exFstrArr [] ⟨1, 0, 2, [.vptr (some 0), .vptr none]⟩
    rfl (by decide) (by decide) (by decide)
    (by
      intro i hi
      have hi' : i < 2 := hi
      rcases i with _ | (_ | i)
      · exact Or.inr ⟨0, 2, rfl, by decide, rfl, by decide⟩
      · exact Or.inl rfl
      · exact absurd hi' (fun hcon => Nat.not_lt_zero i
          (Nat.lt_of_succ_lt_succ (Nat.lt_of_succ_lt_succ hcon))))
    (by
      intro i j x hij hj hieq
      have hj' : j < 2 := hj
      rcases j with _ | (_ | j)
      · exact absurd hij (Nat.not_lt_zero i)
      · show (List.getD [upb_value.vptr (some 0), upb_value.vptr none] 1
          (.vint 0)) ≠ _
        intro hcontra
        injection hcontra with hx0
        exact Option.noConfusion hx0
      · exact absurd hj' (fun hcon => Nat.not_lt_zero j
          (Nat.lt_of_succ_lt_succ (Nat.lt_of_succ_lt_succ hcon))))
  refine ⟨hc.1, ?_⟩
  have h2 := (hc.2.1 0 0 2 (by decide) rfl rfl).1 (by decide)
  exact h2

/- ## Abort propagation through the dispatch traversal -/

/-- The empty trace satisfies abort propagation for any flow. -/
theorem breakyLast_nil (fl : upb_flow_t) : BreakyLast fl [] := by
  intro i e hget _
  rw [List.getElem?_nil] at hget
  exact Option.noConfusion hget

/-- Weakening: the flow may be replaced by anything that is BREAK whenever
the original was. -/
theorem breakyLast_mono {fl fl' : upb_flow_t} {tr : List UEvent}
    (h : BreakyLast fl tr) (himp : fl = UPB_BREAK → fl' = UPB_BREAK) :
    BreakyLast fl' tr := by
  intro i e hget hbr
  obtain ⟨h1, h2⟩ := h i e hget hbr
  exact ⟨h1, himp h2⟩

/-- Appending: if the first trace came back CONTINUE (so it contains no
BREAK event), abort propagation of the second part extends to the whole. -/
theorem breakyLast_append {fl1 fl : upb_flow_t} {tr1 tr2 : List UEvent}
    (h1 : BreakyLast fl1 tr1) (hfl1 : fl1 = UPB_CONTINUE)
    (h2 : BreakyLast fl tr2) : BreakyLast fl (tr1 ++ tr2) := by
  intro i e hget hbr
  by_cases hi : i < tr1.length
  · rw [List.getElem?_append_left hi] at hget
    obtain ⟨-, hcon⟩ := h1 i e hget hbr
    rw [hfl1] at hcon
    exact upb_flow_t.noConfusion hcon
  · rw [List.getElem?_append_right (Nat.le_of_not_lt hi)] at hget
    obtain ⟨hlen, hfl⟩ := h2 (i - tr1.length) e hget hbr
    refine ⟨?_, hfl⟩
    rw [List.length_append, ← hlen, ← Nat.add_assoc,
      Nat.add_sub_cancel' (Nat.le_of_not_lt hi)]

/-- Prepending a non-BREAK event preserves abort propagation. -/
theorem breakyLast_cons {fl : upb_flow_t} {e0 : UEvent} {tr : List UEvent}
    (he0 : breakyEv e0 = false) (h : BreakyLast fl tr) :
    BreakyLast fl (e0 :: tr) := by
  intro i e hget hbr
  cases i with
  | zero =>
    rw [List.getElem?_cons_zero] at hget
    rw [← Option.some_inj.mp hget] at hbr
    rw [he0] at hbr
    exact Bool.noConfusion hbr
  | succ j =>
    rw [List.getElem?_cons_succ] at hget
    obtain ⟨hlen, hfl⟩ := h j e hget hbr
    refine ⟨?_, hfl⟩
    rw [List.length_cons, hlen]

/-- A single `value` event recording flow `fl` satisfies abort propagation
for result `fl`. -/
theorem breakyLast_value (n : Nat) (x : Int) (fl : upb_flow_t) :
    BreakyLast fl [.valueEv n x fl] := by
  intro i e hget hbr
  cases i with
  | zero =>
    rw [List.getElem?_cons_zero] at hget
    rw [← Option.some_inj.mp hget] at hbr
    refine ⟨rfl, ?_⟩
    simpa [breakyEv] using hbr
  | succ j =>
    rw [List.getElem?_cons_succ, List.getElem?_nil] at hget
    exact Option.noConfusion hget

/-- A single `endSubmessage` event recording flow `fl` satisfies abort
propagation for result `fl`. -/
theorem breakyLast_endsub (n : Nat) (fl : upb_flow_t) :
    BreakyLast fl [.endSub n fl] := by
  intro i e hget hbr
  cases i with
  | zero =>
    rw [List.getElem?_cons_zero] at hget
    rw [← Option.some_inj.mp hget] at hbr
    refine ⟨rfl, ?_⟩
    simpa [breakyEv] using hbr
  | succ j =>
    rw [List.getElem?_cons_succ, List.getElem?_nil] at hget
    exact Option.noConfusion hget

/-- Unfolding of `upb_msg_pushval` on a scalar value. -/
theorem upb_msg_pushval_dint (x : Int) (n : Nat) (h : upb_handlers)
    (hf : upb_handlers_fieldent) :
    upb_msg_pushval (.dint x) n h hf =
      (hf.hvalue x, [.valueEv n x (hf.hvalue x)]) := rfl

/-- Unfolding of `upb_msg_pushval` on a sub-message value. -/
theorem upb_msg_pushval_dmsg (m : DMsg) (n : Nat) (h : upb_handlers)
    (hf : upb_handlers_fieldent) :
    upb_msg_pushval (.dmsg m) n h hf =
      if hf.hstartsubmsg ≠ UPB_CONTINUE then
        (if hf.hstartsubmsg = UPB_SKIPSUBMSG then UPB_CONTINUE
          else hf.hstartsubmsg, [.startSub n hf.hstartsubmsg])
      else
        if (upb_msg_dispatch m h).1 ≠ UPB_CONTINUE then
          (if (upb_msg_dispatch m h).1 = UPB_SKIPSUBMSG then UPB_CONTINUE
            else (upb_msg_dispatch m h).1,
            .startSub n hf.hstartsubmsg :: (upb_msg_dispatch m h).2)
        else
          (hf.hendsubmsg,
            .startSub n hf.hstartsubmsg :: (upb_msg_dispatch m h).2 ++
              [.endSub n hf.hendsubmsg]) := rfl

/-- Unfolding of the element loop on a non-empty element list. -/
theorem upb_msg_dispatchElems_cons (v : DVal) (vs : DVals) (n : Nat)
    (h : upb_handlers) (hf : upb_handlers_fieldent) :
    upb_msg_dispatchElems (.cons v vs) n h hf =
      if (upb_msg_pushval v n h hf).1 = UPB_CONTINUE then
        ((upb_msg_dispatchElems vs n h hf).1,
          (upb_msg_pushval v n h hf).2 ++ (upb_msg_dispatchElems vs n h hf).2)
      else upb_msg_pushval v n h hf := rfl

/-- Unfolding of `upb_msg_dispatch` on a singular field. -/
theorem upb_msg_dispatch_cons_fsingle (n : Nat) (p : Bool) (v : DVal)
    (rest : DMsg) (h : upb_handlers) :
    upb_msg_dispatch (.cons (.fsingle n p v) rest) h =
      if p = false then upb_msg_dispatch rest h
      else
        match h.lookup n with
        | none => upb_msg_dispatch rest h
        | some hf =>
          match (upb_msg_pushval v n h hf).1 with
          | UPB_CONTINUE =>
            ((upb_msg_dispatch rest h).1,
              (upb_msg_pushval v n h hf).2 ++ (upb_msg_dispatch rest h).2)
          | UPB_SKIPSUBMSG => (UPB_CONTINUE, (upb_msg_pushval v n h hf).2)
          | UPB_BREAK => (UPB_BREAK, (upb_msg_pushval v n h hf).2) := rfl

/-- Unfolding of `upb_msg_dispatch` on a repeated field. -/
theorem upb_msg_dispatch_cons_farr (n : Nat) (p : Bool) (vs : DVals)
    (rest : DMsg) (h : upb_handlers) :
    upb_msg_dispatch (.cons (.farr n p vs) rest) h =
      if p = false then upb_msg_dispatch rest h
      else
        match h.lookup n with
        | none => upb_msg_dispatch rest h
        | some hf =>
          match (upb_msg_dispatchElems vs n h hf).1 with
          | UPB_CONTINUE =>
            ((upb_msg_dispatch rest h).1,
              (upb_msg_dispatchElems vs n h hf).2 ++
                (upb_msg_dispatch rest h).2)
          | UPB_SKIPSUBMSG =>
            (UPB_CONTINUE, (upb_msg_dispatchElems vs n h hf).2)
          | UPB_BREAK =>
            (UPB_BREAK, (upb_msg_dispatchElems vs n h hf).2) := rfl

mutual

/-- A pushed value's trace satisfies abort propagation. -/
theorem pushval_breakyLast (v : DVal) (n : Nat) (h : upb_handlers)
    (hf : upb_handlers_fieldent) :
    BreakyLast (upb_msg_pushval v n h hf).1 (upb_msg_pushval v n h hf).2 := by
  cases v with
  | dint x =>
    rw [upb_msg_pushval_dint]
    exact breakyLast_value n x (hf.hvalue x)
  | dmsg m =>
    have hd := upb_msg_dispatch_breakyLast m h
    rw [upb_msg_pushval_dmsg]
    cases hfl1 : hf.hstartsubmsg with
    | UPB_SKIPSUBMSG =>
      simp only [ne_eq, reduceCtorEq, not_false_eq_true, if_true, reduceIte]
      exact breakyLast_cons rfl (breakyLast_nil _)
    | UPB_BREAK =>
      simp only [ne_eq, reduceCtorEq, not_false_eq_true, if_true, reduceIte]
      exact breakyLast_cons rfl (breakyLast_nil _)
    | UPB_CONTINUE =>
      simp only [ne_eq, not_true_eq_false, if_false, reduceIte]
      cases hfl2 : (upb_msg_dispatch m h).1 with
      | UPB_CONTINUE =>
        rw [hfl2] at hd
        simp only [hfl2, ne_eq, not_true_eq_false, if_false, reduceIte]
        refine breakyLast_cons rfl (breakyLast_append hd rfl ?_)
        exact breakyLast_endsub n hf.hendsubmsg
      | UPB_SKIPSUBMSG =>
        rw [hfl2] at hd
        simp only [hfl2, ne_eq, reduceCtorEq, not_false_eq_true, if_true,
          reduceIte]
        refine breakyLast_cons rfl (breakyLast_mono hd ?_)
        intro hcon
        exact upb_flow_t.noConfusion hcon
      | UPB_BREAK =>
        rw [hfl2] at hd
        simp only [hfl2, ne_eq, reduceCtorEq, not_false_eq_true, if_true,
          reduceIte]
        exact breakyLast_cons rfl (breakyLast_mono hd fun _ => rfl)

/-- A repeated field's element loop trace satisfies abort propagation. -/
theorem dispatchElems_breakyLast (vs : DVals) (n : Nat) (h : upb_handlers)
    (hf : upb_handlers_fieldent) :
    BreakyLast (upb_msg_dispatchElems vs n h hf).1
      (upb_msg_dispatchElems vs n h hf).2 := by
  cases vs with
  | nil => exact breakyLast_nil _
  | cons v rest =>
    have hp := pushval_breakyLast v n h hf
    have he := dispatchElems_breakyLast rest n h hf
    rw [upb_msg_dispatchElems_cons]
    by_cases hr1 : (upb_msg_pushval v n h hf).1 = UPB_CONTINUE
    · rw [if_pos hr1]
      rw [hr1] at hp
      exact breakyLast_append hp rfl he
    · rw [if_neg hr1]
      exact hp

/-- A message dispatch trace satisfies abort propagation. -/
theorem upb_msg_dispatch_breakyLast (m : DMsg) (h : upb_handlers) :
    BreakyLast (upb_msg_dispatch m h).1 (upb_msg_dispatch m h).2 := by
  cases m with
  | nil => exact breakyLast_nil _
  | cons f rest =>
    have hr := upb_msg_dispatch_breakyLast rest h
    cases f with
    | fsingle n p v =>
      rw [upb_msg_dispatch_cons_fsingle]
      cases p with
      | false =>
        rw [if_pos rfl]
        exact hr
      | true =>
        rw [if_neg (by simp)]
        cases hlk : h.lookup n with
        | none =>
          simp only [hlk]
          exact hr
        | some hf =>
          simp only [hlk]
          have hp := pushval_breakyLast v n h hf
          cases hr1 : (upb_msg_pushval v n h hf).1 with
          | UPB_CONTINUE =>
            rw [hr1] at hp
            simp only [hr1]
            exact breakyLast_append hp rfl hr
          | UPB_SKIPSUBMSG =>
            simp only [hr1]
            refine breakyLast_mono hp ?_
            intro hcon
            rw [hr1] at hcon
            exact upb_flow_t.noConfusion hcon
          | UPB_BREAK =>
            simp only [hr1]
            exact breakyLast_mono hp fun _ => rfl
    | farr n p vs =>
      rw [upb_msg_dispatch_cons_farr]
      cases p with
      | false =>
        rw [if_pos rfl]
        exact hr
      | true =>
        rw [if_neg (by simp)]
        cases hlk : h.lookup n with
        | none =>
          simp only [hlk]
          exact hr
        | some hf =>
          simp only [hlk]
          have hp := dispatchElems_breakyLast vs n h hf
          cases hr1 : (upb_msg_dispatchElems vs n h hf).1 with
          | UPB_CONTINUE =>
            rw [hr1] at hp
            simp only [hr1]
            exact breakyLast_append hp rfl hr
          | UPB_SKIPSUBMSG =>
            simp only [hr1]
            refine breakyLast_mono hp ?_
            intro hcon
            rw [hr1] at hcon
            exact upb_flow_t.noConfusion hcon
          | UPB_BREAK =>
            simp only [hr1]
            exact breakyLast_mono hp fun _ => rfl

end

/-- C3 (amended: restricted to the BREAK/abort signal — SKIP-SUBMESSAGE
returned by a `value` or `endSubmessage` handler is *not* abort-equivalent,
see the counterexample): whenever a `value` or `endSubmessage` handler
returns BREAK, that event is followed in the full `upb_msg_runhandlers`
trace by nothing but the final `endMessage`, whose status is
abort-indicating — the traversal terminates immediately, propagating up
through all recursion levels. -/
theorem claim_C3 (m : DMsg) (h : upb_handlers) (i n : Nat) (x : Int)
    (hcase : (upb_msg_runhandlers m h)[i]? = some (.valueEv n x UPB_BREAK) ∨
      (upb_msg_runhandlers m h)[i]? = some (.endSub n UPB_BREAK)) :
    (upb_msg_runhandlers m h).drop (i + 1) = [.endMsg true] := by
  have hd := upb_msg_dispatch_breakyLast m h
  have hrun : upb_msg_runhandlers m h =
      .startMsg :: (upb_msg_dispatch m h).2 ++
        [.endMsg (decide ((upb_msg_dispatch m h).1 = UPB_BREAK))] := rfl
  obtain ⟨e, hget, hbre⟩ : ∃ e, (upb_msg_runhandlers m h)[i]? = some e ∧
      breakyEv e = true := by
    rcases hcase with hc | hc
    · exact ⟨_, hc, rfl⟩
    · exact ⟨_, hc, rfl⟩
  rw [hrun] at hget ⊢
  cases i with
  | zero =>
    rw [List.cons_append, List.getElem?_cons_zero] at hget
    rw [← Option.some_inj.mp hget] at hbre
    exact Bool.noConfusion hbre
  | succ j =>
    rw [List.cons_append, List.getElem?_cons_succ] at hget
    by_cases hj : j < (upb_msg_dispatch m h).2.length
    · rw [List.getElem?_append_left hj] at hget
      obtain ⟨hlen, hfl⟩ := hd j e hget hbre
      rw [List.cons_append, List.drop_succ_cons]
      have hdrop : ((upb_msg_dispatch m h).2 ++
          [UEvent.endMsg (decide ((upb_msg_dispatch m h).1 = UPB_BREAK))]).drop
            (j + 1) =
          [UEvent.endMsg (decide ((upb_msg_dispatch m h).1 = UPB_BREAK))] := by
        rw [show j + 1 = (upb_msg_dispatch m h).2.length from hlen]
        exact List.drop_left _ _
      rw [hdrop, hfl]
      rfl
    · rw [List.getElem?_append_right (Nat.le_of_not_lt hj)] at hget
      rcases Nat.lt_or_ge (j - (upb_msg_dispatch m h).2.length) 1 with h0 | h1
      · have hz : j - (upb_msg_dispatch m h).2.length = 0 := Nat.lt_one_iff.mp h0
        rw [hz, List.getElem?_cons_zero] at hget
        rw [← Option.some_inj.mp hget] at hbre
        exact Bool.noConfusion hbre
      · have hnone : ([UEvent.endMsg
            (decide ((upb_msg_dispatch m h).1 = UPB_BREAK))] :
              List UEvent)[j - (upb_msg_dispatch m h).2.length]? = none :=
          List.getElem?_eq_none h1
        rw [hnone] at hget
        exact Option.noConfusion hget

/-- C3 counterexample: the `value` handler of field 2 (inside the
sub-message of field 1) returns SKIP-SUBMESSAGE — a signal other than
CONTINUE — at trace index 2, yet the traversal does NOT terminate: the
parent's `endSubmessage` is still delivered, the parent's remaining field 3
still produces a value event, and `endMessage` reports a non-abort status.
The code translates SKIP-SUBMESSAGE back to CONTINUE one dispatch level up
instead of propagating it through all recursion levels. -/
theorem claim_C3_counterexample :
    upb_msg_runhandlers exM3 exH3 =
      [.startMsg, .startSub 1 UPB_CONTINUE, .valueEv 2 5 UPB_SKIPSUBMSG,
       .endSub 1 UPB_CONTINUE, .valueEv 3 7 UPB_CONTINUE, .endMsg false] ∧
    (upb_msg_runhandlers exM3 exH3).drop 3 ≠ [.endMsg true] ∧
    .valueEv 3 7 UPB_CONTINUE ∈ (upb_msg_runhandlers exM3 exH3).drop 3 := by
  refine ⟨rfl, fun hcontra => absurd (congrArg List.length hcontra) (by decide),
    .tail _ (.head _)⟩

/-- C3 witness: the amended claim applied to a one-field message whose
`value` handler returns BREAK — the trace is cut immediately after the
value event and ends with the abort-indicating `endMessage`. -/
theorem claim_C3_witness :
    ((upb_msg_runhandlers exMB exHB)[1]? = some (.valueEv 1 5 UPB_BREAK) ∨
      (upb_msg_runhandlers exMB exHB)[1]? = some (.endSub 1 UPB_BREAK)) ∧
    (upb_msg_runhandlers exMB exHB).drop 2 = [.endMsg true] :=
  ⟨Or.inl rfl, claim_C3 exMB exHB 1 1 5 (Or.inl rfl)⟩

/-- C4: when a `startSubmessage` handler returns SKIP-SUBMESSAGE, the
sub-message's contents produce no events at all (no nested value /
startSubmessage / endSubmessage calls are made for it), the signal is
absorbed at that point — `upb_msg_pushval` comes back CONTINUE — and the
dispatch continues with all remaining fields of the parent message. -/
theorem claim_C4 (m : DMsg) (n : Nat) (h : upb_handlers)
    (hf : upb_handlers_fieldent) (rest : DMsg)
    (hlook : h.lookup n = some hf)
    (hskip : hf.hstartsubmsg = UPB_SKIPSUBMSG) :
    upb_msg_pushval (.dmsg m) n h hf =
      (UPB_CONTINUE, [.startSub n UPB_SKIPSUBMSG]) ∧
    upb_msg_dispatch (.cons (.fsingle n true (.dmsg m)) rest) h =
      ((upb_msg_dispatch rest h).1,
        .startSub n UPB_SKIPSUBMSG :: (upb_msg_dispatch rest h).2) := by
  have hpush : upb_msg_pushval (.dmsg m) n h hf =
      (UPB_CONTINUE, [.startSub n UPB_SKIPSUBMSG]) := by
    rw [upb_msg_pushval_dmsg, hskip]
    simp only [ne_eq, reduceCtorEq, not_false_eq_true, if_true, reduceIte]
  refine ⟨hpush, ?_⟩
  rw [upb_msg_dispatch_cons_fsingle, if_neg (by simp)]
  simp only [hlook, hpush]
  rfl

/-- C4 witness: the claim applied to a sub-message containing a present
scalar field, followed by a remaining scalar field in the parent: the
sub-message produces no events and field 3 is still visited. -/
theorem claim_C4_witness :
    upb_msg_dispatch
        (.cons (.fsingle 1 true (.dmsg (.cons (.fsingle 2 true (.dint 5)) .nil)))
          (.cons (.fsingle 3 true (.dint 7)) .nil)) exH4 =
      (UPB_CONTINUE,
        [.startSub 1 UPB_SKIPSUBMSG, .valueEv 3 7 UPB_CONTINUE]) := by
  have hc := (claim_C4 (.cons (.fsingle 2 true (.dint 5)) .nil) 1 exH4
    skipSubEnt (.cons (.fsingle 3 true (.dint 7)) .nil) rfl rfl).2
  rw [hc]
  rfl

/-- C9: the dispatch over a message with fields {1: present scalar 10,
2: absent, 3: present repeated with elements 7, 8, 9} under a handler set
registered only for fields 1 and 3 emits exactly startMessage, value(1),
value(3)×3 in array storage order, endMessage (with an ok status); the
absent field 2 produces no event — and a present field 2 with no registered
handler produces the identical trace (silently skipped, no error). -/
theorem claim_C9 :
    upb_msg_runhandlers exM9 exH9 =
      [.startMsg, .valueEv 1 10 UPB_CONTINUE, .valueEv 3 7 UPB_CONTINUE,
       .valueEv 3 8 UPB_CONTINUE, .valueEv 3 9 UPB_CONTINUE,
       .endMsg false] ∧
    upb_msg_runhandlers exM9b exH9 =
      [.startMsg, .valueEv 1 10 UPB_CONTINUE, .valueEv 3 7 UPB_CONTINUE,
       .valueEv 3 8 UPB_CONTINUE, .valueEv 3 9 UPB_CONTINUE,
       .endMsg false] :=
  ⟨rfl, rfl⟩

end UpbMsg
